import Mathlib

/-!
# Verification of the graft binary patch toolkit

Shallow embedding of the graft patch model: content hashing (SHA-256 hex
digests), the binary delta codec, the manifest data model and its JSON
(de)serialization semantics, the path-restriction policy, the directory
scanner, the archive packer, and the transactional validate/backup/apply/
rollback engine.  Machine bytes are `Fin 256`; file systems are maps from
relative path strings to byte sequences.

Definitions are translated from the Rust sources (crates/graft-core,
crates/graft-gui, crates/graft-builder and the standalone src tree).  Parts
of the apply engine that live outside the provided sources (the
`apply_entries` driver, `verify_entry`, and the `file_ops` copy helpers)
are modelled from the specification and marked as such in their doc
comments.
-/

namespace Graft

/-- A machine byte, as stored in Rust `u8` / `Vec<u8>` values. -/
abbrev Byte := Fin 256

/-- A byte sequence (`&[u8]` / `Vec<u8>`). -/
abbrev Bytes := List Byte

/-! ## SHA-256 (`src/src/utils/hash.rs`, `hash_bytes`)

`hash_bytes` feeds the input to `sha2::Sha256` and formats the 32-byte
digest as 64 lowercase hex characters.  We implement SHA-256 (FIPS 180-4)
over `Nat` words reduced mod 2^32. -/

/-- 2^32, the modulus of SHA-256 word arithmetic. -/
def w32 : Nat := 4294967296

/-- Right-rotate a 32-bit word held in a `Nat`. -/
def rotr (n x : Nat) : Nat := ((x >>> n) ||| (x <<< (32 - n))) % w32

/-- The SHA-256 round constants (FIPS 180-4 §4.2.2, in decimal). -/
def sha256K : List Nat :=
  [1116352408, 1899447441, 3049323471, 3921009573, 961987163,
   1508970993, 2453635748, 2870763221, 3624381080, 310598401,
   607225278, 1426881987, 1925078388, 2162078206, 2614888103,
   3248222580, 3835390401, 4022224774, 264347078, 604807628,
   770255983, 1249150122, 1555081692, 1996064986, 2554220882,
   2821834349, 2952996808, 3210313671, 3336571891, 3584528711,
   113926993, 338241895, 666307205, 773529912, 1294757372,
   1396182291, 1695183700, 1986661051, 2177026350, 2456956037,
   2730485921, 2820302411, 3259730800, 3345764771, 3516065817,
   3600352804, 4094571909, 275423344, 430227734, 506948616,
   659060556, 883997877, 958139571, 1322822218, 1537002063,
   1747873779, 1955562222, 2024104815, 2227730452, 2361852424,
   2428436474, 2756734187, 3204031479, 3329325298]

/-- The SHA-256 initial hash state (FIPS 180-4 §5.3.3, in decimal). -/
def sha256H0 : List Nat :=
  [1779033703, 3144134277, 1013904242, 2773480762, 1359893119,
   2600822924, 528734635, 1541459225]

/-- Append the big-endian 8-byte encoding of `n` (the bit length) to `acc`. -/
def be64 (n : Nat) : List Nat :=
  [n >>> 56 % 256, n >>> 48 % 256, n >>> 40 % 256, n >>> 32 % 256,
   n >>> 24 % 256, n >>> 16 % 256, n >>> 8 % 256, n % 256]

/-- SHA-256 padding: a 0x80 byte, zeros to 56 mod 64, then the bit length. -/
def sha256Pad (msg : List Nat) : List Nat :=
  msg ++ [0x80] ++ List.replicate ((119 - msg.length % 64) % 64) 0 ++ be64 (msg.length * 8)

/-- Pack a big-endian 4-byte group into one 32-bit word. -/
def packWords : List Nat → List Nat
  | a :: b :: c :: d :: rest => (((a * 256 + b) * 256 + c) * 256 + d) :: packWords rest
  | _ => []

/-- SHA-256 small sigma 0. -/
def ssig0 (x : Nat) : Nat := (rotr 7 x) ^^^ (rotr 18 x) ^^^ (x >>> 3)

/-- SHA-256 small sigma 1. -/
def ssig1 (x : Nat) : Nat := (rotr 17 x) ^^^ (rotr 19 x) ^^^ (x >>> 10)

/-- SHA-256 big sigma 0. -/
def bsig0 (x : Nat) : Nat := (rotr 2 x) ^^^ (rotr 13 x) ^^^ (rotr 22 x)

/-- SHA-256 big sigma 1. -/
def bsig1 (x : Nat) : Nat := (rotr 6 x) ^^^ (rotr 11 x) ^^^ (rotr 25 x)

/-- Extend the 16 message words of a block to the full 64-word schedule.
`ws` holds the words produced so far, most recent first. -/
def sched (ws : List Nat) : Nat → List Nat
  | 0 => ws
  | n + 1 =>
    sched ((ssig1 (ws.getD 1 0) + ws.getD 6 0 + ssig0 (ws.getD 14 0) + ws.getD 15 0) % w32 :: ws) n

/-- One SHA-256 compression round, updating the eight working variables. -/
def round1 (kw : Nat) : List Nat → List Nat
  | [a, b, c, d, e, f, g, h] =>
    let t1 := (h + bsig1 e + ((e &&& f) ^^^ ((w32 - 1 - e) &&& g)) + kw) % w32
    let t2 := (bsig0 a + ((a &&& b) ^^^ (a &&& c) ^^^ (b &&& c))) % w32
    [(t1 + t2) % w32, a, b, c, (d + t1) % w32, e, f, g]
  | s => s

/-- Run the 64 compression rounds over the schedule of one block. -/
def rounds : List Nat → List Nat → List Nat
  | [], st => st
  | kw :: rest, st => rounds rest (round1 kw st)

/-- Compress one 16-word block into the running hash state. -/
def sha256Block (st : List Nat) (blk : List Nat) : List Nat :=
  let ws := sched blk.reverse 48
  let st2 := rounds (List.zipWith (fun a b => (a + b) % w32) sha256K ws.reverse) st
  List.zipWith (fun a b => (a + b) % w32) st st2

/-- Split a list into contiguous chunks of 16 words (fuel-driven so that the
kernel can evaluate it). -/
def chunk16F : Nat → List Nat → List (List Nat)
  | 0, _ => []
  | _, [] => []
  | fuel + 1, w :: ws => (w :: ws.take 15) :: chunk16F fuel (ws.drop 15)

/-- Split a list into contiguous chunks of 16 words. -/
def chunk16 (ws : List Nat) : List (List Nat) := chunk16F ws.length ws

/-- Lowercase hex character for a nibble. -/
def hexChar (n : Nat) : Char :=
  if n < 10 then Char.ofNat (48 + n) else Char.ofNat (87 + n)

/-- Two lowercase hex characters for one byte value. -/
def byteHex (n : Nat) : List Char := [hexChar (n / 16 % 16), hexChar (n % 16)]

/-- Big-endian 4-byte expansion of a 32-bit word. -/
def wordBytes (n : Nat) : List Nat := [n >>> 24 % 256, n >>> 16 % 256, n >>> 8 % 256, n % 256]

/-- `hash_bytes` from `src/src/utils/hash.rs`: the SHA-256 digest of the
input, formatted as 64 lowercase hex characters. -/
def hashBytes (data : Bytes) : String :=
  let padded := sha256Pad (data.map Fin.val)
  let st := (chunk16 (packWords padded)).foldl sha256Block sha256H0
  ⟨(st.flatMap wordBytes).flatMap byteHex⟩

/-! ## Binary delta codec (`src/src/utils/diff.rs`)

`create_diff` and `apply_diff` are one-line delegations to the external
`bsdiff` crate.  Modelled from the spec: the crate itself is not part of
this repository, so the bsdiff-family raw delta format is reconstructed
from §4.2 ("a well-known binary-diff format (bsdiff family)"): a delta is
a sequence of groups, each one a 24-byte control record of three 8-byte
sign-magnitude little-endian integers (diff length, extra length, seek),
followed by the diff block (added bytewise, wrapping, to the bytes of
`old` at the current read position) and the literal extra block; after a
group the read position advances by the diff length plus the seek.  The
creator emits exact-match groups (zero diff bytes over a matching run of
`old`) and literal groups, which is a member of the same format family. -/

/-- Reduce a `Nat` to a byte. -/
def byteOf (n : Nat) : Byte := ⟨n % 256, Nat.mod_lt n (by omega)⟩

/-- bsdiff `offtout`: 8-byte sign-magnitude little-endian integer encoding. -/
def offtout (x : Int) : Bytes :=
  let m := x.natAbs
  [byteOf m, byteOf (m / 256), byteOf (m / 65536), byteOf (m / 16777216),
   byteOf (m / 4294967296), byteOf (m / 1099511627776), byteOf (m / 281474976710656),
   byteOf (m / 72057594037927936 % 128 + if x < 0 then 128 else 0)]

/-- bsdiff `offtin`: decode an 8-byte sign-magnitude little-endian integer. -/
def offtin (bs : Bytes) : Int :=
  match bs with
  | [b0, b1, b2, b3, b4, b5, b6, b7] =>
    let m : Nat := b0.val + b1.val * 256 + b2.val * 65536 + b3.val * 16777216 +
      b4.val * 4294967296 + b5.val * 1099511627776 + b6.val * 281474976710656 +
      (b7.val % 128) * 72057594037927936
    if 128 ≤ b7.val then -(m : Int) else (m : Int)
  | _ => 0

/-- Split off the first `n` bytes, failing when fewer are available. -/
def takeN (n : Nat) (bs : Bytes) : Option (Bytes × Bytes) :=
  if n ≤ bs.length then some (bs.take n, bs.drop n) else none

/-- Read the byte of `old` at a possibly out-of-range position (zero outside). -/
def getByte (old : Bytes) (p : Int) : Byte :=
  if h : 0 ≤ p ∧ p.toNat < old.length then old.get ⟨p.toNat, h.2⟩ else 0

/-- Add the bytes of `old` starting at position `p` to a diff block, wrapping. -/
def addOld (old : Bytes) : Int → Bytes → Bytes
  | _, [] => []
  | p, d :: ds => (d + getByte old p) :: addOld old (p + 1) ds

/-- Parse one 24-byte control record off the front of the delta. -/
def parseCtrl (input : Bytes) : Except String (Int × Int × Int × Bytes) :=
  if 24 ≤ input.length then
    .ok (offtin (input.take 8), offtin ((input.drop 8).take 8),
         offtin ((input.drop 16).take 8), input.drop 24)
  else .error "corrupt delta: truncated control data"

/-- Execute the delta group stream against `old` (fuel-driven loop of the
patch executor; the fuel bounds the number of groups by the input length). -/
def applyDiffF (old : Bytes) : Nat → Int → Bytes → Except String Bytes
  | 0, _, input => if input.isEmpty then .ok [] else .error "corrupt delta: no progress"
  | fuel + 1, oldpos, input =>
    if input.isEmpty then .ok [] else
    match parseCtrl input with
    | .error e => .error e
    | .ok (addL, copyL, seek, rest) =>
      if addL < 0 ∨ copyL < 0 then .error "corrupt delta: negative length"
      else
        match takeN addL.toNat rest with
        | none => .error "corrupt delta: truncated diff block"
        | some (diffB, rest2) =>
          match takeN copyL.toNat rest2 with
          | none => .error "corrupt delta: truncated extra block"
          | some (extraB, rest3) =>
            match applyDiffF old fuel (oldpos + addL + seek) rest3 with
            | .error e => .error e
            | .ok out => .ok (addOld old oldpos diffB ++ extraB ++ out)

/-- `apply_diff(orig, diff)`: run the delta against the original bytes. -/
def applyDiff (orig diff : Bytes) : Except String Bytes :=
  applyDiffF orig diff.length 0 diff

/-- Length of the longest common front run of two byte sequences. -/
def lcp : Bytes → Bytes → Nat
  | a :: as2, b :: bs2 => if a = b then lcp as2 bs2 + 1 else 0
  | _, _ => 0

/-- Position and length of a longest match of the front of `r` inside `old`. -/
def bestMatch (old r : Bytes) : Nat × Nat :=
  (List.range old.length).foldl
    (fun best i => let l := lcp (old.drop i) r; if best.2 < l then (i, l) else best) (0, 0)

/-- A delta group before serialization: diff block, extra block, seek. -/
abbrev DiffGroup := Bytes × Bytes × Int

/-- Serialize one delta group. -/
def encodeGroup (g : DiffGroup) : Bytes :=
  offtout g.1.length ++ offtout g.2.1.length ++ offtout g.2.2 ++ g.1 ++ g.2.1

/-- Greedy group construction: at each position either copy a longest exact
match out of `old` through a zero diff block, or emit one literal byte. -/
def createGroups (old : Bytes) : Nat → Int → Bytes → List DiffGroup
  | _, _, [] => []
  | 0, _, r => [([], r, 0)]
  | fuel + 1, oldpos, r =>
    if (bestMatch old r).2 = 0 then
      ([], r.take 1, 0) :: createGroups old fuel oldpos (r.drop 1)
    else
      ([], [], ((bestMatch old r).1 : Int) - oldpos) ::
        (List.replicate (bestMatch old r).2 0, [], 0) ::
          createGroups old fuel (((bestMatch old r).1 : Int) + (bestMatch old r).2)
            (r.drop (bestMatch old r).2)

/-- `create_diff(old, new)`: serialize the greedy group construction. -/
def createDiff (old new : Bytes) : Bytes :=
  ((createGroups old new.length 0 new).map encodeGroup).flatten

/-- Reference executor for a group list (used to relate the byte-level
parser to the group-level construction). -/
def execGroups (old : Bytes) : Int → List DiffGroup → Bytes
  | _, [] => []
  | oldpos, (d, e, s) :: gs => addOld old oldpos d ++ e ++ execGroups old (oldpos + d.length + s) gs

/-! ### Round-trip lemmas for the delta codec -/

theorem offtout_length (x : Int) : (offtout x).length = 8 := rfl

theorem offtin_offtout (x : Int) (h : x.natAbs < 9223372036854775808) :
    offtin (offtout x) = x := by
  unfold offtout offtin byteOf
  have hm : x.natAbs / 72057594037927936 < 128 := by omega
  rcases lt_or_le x 0 with hx | hx
  · simp only [if_pos hx]
    have h7 : (x.natAbs / 72057594037927936 % 128 + 128) % 256 = x.natAbs / 72057594037927936 + 128 := by
      omega
    simp only [h7]
    rw [if_pos (by omega)]
    have hrec : x.natAbs % 256 + x.natAbs / 256 % 256 * 256 + x.natAbs / 65536 % 256 * 65536 +
        x.natAbs / 16777216 % 256 * 16777216 + x.natAbs / 4294967296 % 256 * 4294967296 +
        x.natAbs / 1099511627776 % 256 * 1099511627776 +
        x.natAbs / 281474976710656 % 256 * 281474976710656 +
        (x.natAbs / 72057594037927936 + 128) % 128 * 72057594037927936 = x.natAbs := by
      omega
    rw [hrec]
    omega
  · simp only [if_neg (not_lt.mpr hx), Nat.add_zero]
    have h7 : x.natAbs / 72057594037927936 % 128 % 256 = x.natAbs / 72057594037927936 := by omega
    simp only [h7]
    rw [if_neg (by omega)]
    have hrec : x.natAbs % 256 + x.natAbs / 256 % 256 * 256 + x.natAbs / 65536 % 256 * 65536 +
        x.natAbs / 16777216 % 256 * 16777216 + x.natAbs / 4294967296 % 256 * 4294967296 +
        x.natAbs / 1099511627776 % 256 * 1099511627776 +
        x.natAbs / 281474976710656 % 256 * 281474976710656 +
        x.natAbs / 72057594037927936 % 128 * 72057594037927936 = x.natAbs := by
      omega
    rw [hrec]
    omega

theorem take8_append (xs rest : Bytes) (h : xs.length = 8) : (xs ++ rest).take 8 = xs := by
  rw [List.take_append_of_le_length (by omega), List.take_of_length_le (by omega)]

theorem drop8_append (xs rest : Bytes) (h : xs.length = 8) : (xs ++ rest).drop 8 = rest := by
  rw [← h, List.drop_left]

theorem takeN_append (xs rest : Bytes) : takeN xs.length (xs ++ rest) = some (xs, rest) := by
  unfold takeN
  rw [if_pos (by simp), List.take_left, List.drop_left]

theorem parseCtrl_encode (a b c : Int) (rest : Bytes) :
    parseCtrl (offtout a ++ (offtout b ++ (offtout c ++ rest))) =
      .ok (offtin (offtout a), offtin (offtout b), offtin (offtout c), rest) := by
  have d1 : (offtout a ++ (offtout b ++ (offtout c ++ rest))).drop 8 =
      offtout b ++ (offtout c ++ rest) := drop8_append _ _ (offtout_length a)
  have d2 : (offtout b ++ (offtout c ++ rest)).drop 8 = offtout c ++ rest :=
    drop8_append _ _ (offtout_length b)
  have d3 : (offtout c ++ rest).drop 8 = rest := drop8_append _ _ (offtout_length c)
  have d16 : (offtout a ++ (offtout b ++ (offtout c ++ rest))).drop 16 =
      offtout c ++ rest := by
    rw [show (16 : Nat) = 8 + 8 from rfl, ← List.drop_drop, d1, d2]
  have d24 : (offtout a ++ (offtout b ++ (offtout c ++ rest))).drop 24 = rest := by
    rw [show (24 : Nat) = 8 + 16 from rfl, ← List.drop_drop, d1,
      show (16 : Nat) = 8 + 8 from rfl, ← List.drop_drop, d2, d3]
  unfold parseCtrl
  rw [if_pos (by simp [offtout_length]; omega)]
  rw [take8_append _ _ (offtout_length a), d1, take8_append _ _ (offtout_length b),
    d16, take8_append _ _ (offtout_length c), d24]

theorem offtin_natCast (n : Nat) (h : n < 9223372036854775808) :
    offtin (offtout (n : Int)) = (n : Int) :=
  offtin_offtout _ (by simpa using h)

/-- One step of the delta executor over an encoded group. -/
theorem applyDiffF_step (old : Bytes) (f : Nat) (oldpos : Int) (d e : Bytes) (s : Int)
    (rest : Bytes) (hd : d.length < 9223372036854775808)
    (he : e.length < 9223372036854775808) (hs : s.natAbs < 9223372036854775808) :
    applyDiffF old (f + 1) oldpos (encodeGroup (d, e, s) ++ rest) =
      match applyDiffF old f (oldpos + d.length + s) rest with
      | .error er => .error er
      | .ok out => .ok (addOld old oldpos d ++ e ++ out) := by
  have hne : ((encodeGroup (d, e, s) ++ rest).isEmpty) = false := by
    simp [encodeGroup, offtout]
  rw [applyDiffF, if_neg (by simp [hne])]
  have henc : encodeGroup (d, e, s) ++ rest =
      offtout d.length ++ (offtout e.length ++ (offtout s ++ (d ++ (e ++ rest)))) := by
    simp [encodeGroup, List.append_assoc]
  rw [henc, parseCtrl_encode, offtin_natCast _ hd, offtin_natCast _ he,
    offtin_offtout _ hs]
  dsimp only
  rw [if_neg (by omega)]
  have htnd : ((d.length : Int)).toNat = d.length := by omega
  have htne : ((e.length : Int)).toNat = e.length := by omega
  rw [htnd, htne, takeN_append]
  dsimp only
  rw [takeN_append]

/-- Parsing and executing the serialized group stream agrees with the
reference group executor. -/
theorem applyDiffF_encode (old : Bytes) (gs : List DiffGroup) :
    ∀ fuel oldpos, (gs.map encodeGroup).flatten.length ≤ fuel →
    (∀ g ∈ gs, g.1.length < 9223372036854775808 ∧ g.2.1.length < 9223372036854775808 ∧
      g.2.2.natAbs < 9223372036854775808) →
    applyDiffF old fuel oldpos (gs.map encodeGroup).flatten =
      .ok (execGroups old oldpos gs) := by
  induction gs with
  | nil =>
    intro fuel oldpos _ _
    cases fuel <;> simp [applyDiffF, execGroups]
  | cons g gs ih =>
    intro fuel oldpos hfuel hwf
    obtain ⟨d, e, s⟩ := g
    have hlen : ((((d, e, s) :: gs).map encodeGroup).flatten).length =
        24 + d.length + e.length + ((gs.map encodeGroup).flatten).length := by
      simp [encodeGroup, offtout]
      omega
    obtain ⟨f, rfl⟩ : ∃ f, fuel = f + 1 := ⟨fuel - 1, by omega⟩
    have hflat : (((d, e, s) :: gs).map encodeGroup).flatten =
        encodeGroup (d, e, s) ++ (gs.map encodeGroup).flatten := by
      simp
    rw [hflat]
    have hg := hwf (d, e, s) (List.mem_cons_self _ _)
    rw [applyDiffF_step old f oldpos d e s _ hg.1 hg.2.1 hg.2.2]
    rw [ih f (oldpos + d.length + s) (by omega)
      (fun g hgmem => hwf g (List.mem_cons_of_mem _ hgmem))]
    simp [execGroups]

theorem lcp_le_left (a b : Bytes) : lcp a b ≤ a.length := by
  induction a generalizing b with
  | nil => simp [lcp]
  | cons x xs ih =>
    cases b with
    | nil => simp [lcp]
    | cons y ys =>
      unfold lcp
      by_cases h : x = y
      · simp only [if_pos h, List.length_cons]
        exact Nat.succ_le_succ (ih ys)
      · simp [if_neg h]

theorem lcp_take (a b : Bytes) (n : Nat) (h : n ≤ lcp a b) : a.take n = b.take n := by
  induction n generalizing a b with
  | zero => simp
  | succ m ih =>
    cases a with
    | nil => cases b <;> simp [lcp] at h
    | cons x xs =>
      cases b with
      | nil => simp [lcp] at h
      | cons y ys =>
        unfold lcp at h
        by_cases hxy : x = y
        · rw [if_pos hxy] at h
          subst hxy
          simp only [List.take_succ_cons]
          rw [ih xs ys (by omega)]
        · rw [if_neg hxy] at h
          omega

theorem bestMatch_sound (old r : Bytes) :
    (bestMatch old r).2 = 0 ∨
      ((bestMatch old r).1 < old.length ∧
        (bestMatch old r).2 ≤ lcp (old.drop (bestMatch old r).1) r) := by
  unfold bestMatch
  have main : ∀ (xs : List Nat), (∀ i ∈ xs, i < old.length) → ∀ bst : Nat × Nat,
      (bst.2 = 0 ∨ (bst.1 < old.length ∧ bst.2 ≤ lcp (old.drop bst.1) r)) →
      ((xs.foldl (fun best i => let l := lcp (old.drop i) r;
          if best.2 < l then (i, l) else best) bst).2 = 0 ∨
        ((xs.foldl (fun best i => let l := lcp (old.drop i) r;
            if best.2 < l then (i, l) else best) bst).1 < old.length ∧
          (xs.foldl (fun best i => let l := lcp (old.drop i) r;
              if best.2 < l then (i, l) else best) bst).2 ≤
            lcp (old.drop (xs.foldl (fun best i => let l := lcp (old.drop i) r;
              if best.2 < l then (i, l) else best) bst).1) r)) := by
    intro xs
    induction xs with
    | nil => intro _ bst hb; exact hb
    | cons x xs ih =>
      intro hmem bst hb
      simp only [List.foldl_cons]
      refine ih (fun i hi => hmem i (List.mem_cons_of_mem _ hi)) _ ?_
      by_cases hlt : bst.2 < lcp (old.drop x) r
      · simp only [if_pos hlt]
        right
        exact ⟨hmem x (List.mem_cons_self _ _), le_refl _⟩
      · simp only [if_neg hlt]
        exact hb
  exact main (List.range old.length) (fun i hi => List.mem_range.mp hi) (0, 0) (Or.inl rfl)

theorem addOld_zeros (old : Bytes) (len : Nat) :
    ∀ p : Int, 0 ≤ p → p.toNat + len ≤ old.length →
    addOld old p (List.replicate len 0) = (old.drop p.toNat).take len := by
  induction len with
  | zero => intro p _ _; simp [addOld]
  | succ m ih =>
    intro p hp hle
    have hlt : p.toNat < old.length := by omega
    rw [List.replicate_succ]
    unfold addOld
    rw [List.drop_eq_getElem_cons hlt, List.take_succ_cons]
    have hget : getByte old p = old[p.toNat] := by
      unfold getByte
      rw [dif_pos ⟨hp, hlt⟩]
      simp
    rw [hget, zero_add]
    have hnext : (p + 1).toNat = p.toNat + 1 := by omega
    rw [ih (p + 1) (by omega) (by omega), hnext]

theorem createGroups_cons (old : Bytes) (f : Nat) (oldpos : Int) (x : Byte) (xs : Bytes) :
    createGroups old (f + 1) oldpos (x :: xs) =
      if (bestMatch old (x :: xs)).2 = 0 then
        ([], (x :: xs).take 1, 0) :: createGroups old f oldpos ((x :: xs).drop 1)
      else
        ([], [], ((bestMatch old (x :: xs)).1 : Int) - oldpos) ::
          (List.replicate (bestMatch old (x :: xs)).2 0, [], 0) ::
            createGroups old f (((bestMatch old (x :: xs)).1 : Int) + (bestMatch old (x :: xs)).2)
              ((x :: xs).drop (bestMatch old (x :: xs)).2) := rfl

theorem createGroups_wf (old : Bytes) : ∀ fuel (r : Bytes) (oldpos : Int),
    0 ≤ oldpos → oldpos ≤ (old.length : Int) →
    ∀ g ∈ createGroups old fuel oldpos r,
      g.1.length ≤ old.length ∧ g.2.1.length ≤ r.length ∧ g.2.2.natAbs ≤ old.length := by
  intro fuel
  induction fuel with
  | zero =>
    intro r oldpos _ _ g hg
    cases r with
    | nil => simp [createGroups] at hg
    | cons x xs =>
      simp only [createGroups, List.mem_singleton] at hg
      subst hg
      simp
  | succ f ih =>
    intro r oldpos hp0 hple g hg
    cases r with
    | nil => simp [createGroups] at hg
    | cons x xs =>
      by_cases hz2 : (bestMatch old (x :: xs)).2 = 0
      · rw [createGroups_cons, if_pos hz2] at hg
        rcases List.mem_cons.mp hg with hg1 | hg2
        · subst hg1
          refine ⟨by simp, by simp [List.length_take], by simp⟩
        · have := ih _ oldpos hp0 hple g hg2
          refine ⟨this.1, ?_, this.2.2⟩
          calc g.2.1.length ≤ ((x :: xs).drop 1).length := this.2.1
            _ ≤ (x :: xs).length := by simp
      · rw [createGroups_cons, if_neg hz2] at hg
        rcases bestMatch_sound old (x :: xs) with hz | ⟨hpos, hlcp⟩
        · exact absurd hz hz2
        have hlen : (bestMatch old (x :: xs)).2 ≤ old.length - (bestMatch old (x :: xs)).1 := by
          have := lcp_le_left (old.drop (bestMatch old (x :: xs)).1) (x :: xs)
          rw [List.length_drop] at this
          omega
        rcases List.mem_cons.mp hg with hg1 | hg2
        · subst hg1
          refine ⟨by simp, by simp, ?_⟩
          simp only
          omega
        · rcases List.mem_cons.mp hg2 with hg3 | hg4
          · subst hg3
            refine ⟨by simp [List.length_replicate]; omega, by simp, by simp⟩
          · have := ih ((x :: xs).drop (bestMatch old (x :: xs)).2)
              (((bestMatch old (x :: xs)).1 : Int) + ((bestMatch old (x :: xs)).2 : Int))
              (by omega) (by omega) g hg4
            refine ⟨this.1, ?_, this.2.2⟩
            calc g.2.1.length ≤ ((x :: xs).drop (bestMatch old (x :: xs)).2).length := this.2.1
              _ ≤ (x :: xs).length := by simp

theorem execGroups_createGroups (old : Bytes) : ∀ fuel (r : Bytes) (oldpos : Int),
    0 ≤ oldpos → oldpos ≤ (old.length : Int) →
    execGroups old oldpos (createGroups old fuel oldpos r) = r := by
  intro fuel
  induction fuel with
  | zero =>
    intro r oldpos _ _
    cases r with
    | nil => simp [createGroups, execGroups]
    | cons x xs => simp [createGroups, execGroups, addOld]
  | succ f ih =>
    intro r oldpos hp0 hple
    cases r with
    | nil => simp [createGroups, execGroups]
    | cons x xs =>
      by_cases hz2 : (bestMatch old (x :: xs)).2 = 0
      · rw [createGroups_cons, if_pos hz2, execGroups]
        have harith : oldpos + ((([] : Bytes)).length : Int) + 0 = oldpos := by simp
        rw [harith, addOld, ih ((x :: xs).drop 1) oldpos hp0 hple]
        simp
      · rw [createGroups_cons, if_neg hz2, execGroups, execGroups]
        rcases bestMatch_sound old (x :: xs) with hz | ⟨hpos, hlcp⟩
        · exact absurd hz hz2
        have hlen : (bestMatch old (x :: xs)).2 ≤ old.length - (bestMatch old (x :: xs)).1 := by
          have := lcp_le_left (old.drop (bestMatch old (x :: xs)).1) (x :: xs)
          rw [List.length_drop] at this
          omega
        have harith1 : oldpos + ((([] : Bytes)).length : Int) +
            (((bestMatch old (x :: xs)).1 : Int) - oldpos) =
            ((bestMatch old (x :: xs)).1 : Int) := by simp
        rw [harith1]
        have harith2 : ((bestMatch old (x :: xs)).1 : Int) +
            ((List.replicate (bestMatch old (x :: xs)).2 (0 : Byte)).length : Int) + 0 =
            ((bestMatch old (x :: xs)).1 : Int) + ((bestMatch old (x :: xs)).2 : Int) := by
          simp
        rw [harith2]
        have htn : (((bestMatch old (x :: xs)).1 : Int)).toNat = (bestMatch old (x :: xs)).1 := by
          omega
        rw [addOld_zeros old _ _ (by omega) (by omega)]
        rw [htn]
        have hmatch : (old.drop (bestMatch old (x :: xs)).1).take (bestMatch old (x :: xs)).2 =
            (x :: xs).take (bestMatch old (x :: xs)).2 :=
          lcp_take _ _ _ hlcp
        rw [hmatch, ih ((x :: xs).drop (bestMatch old (x :: xs)).2)
          (((bestMatch old (x :: xs)).1 : Int) + ((bestMatch old (x :: xs)).2 : Int))
          (by omega) (by omega)]
        rw [addOld]
        simp

/-- C2: delta round-trip — for every pair of byte sequences `(old, new)`
(within the 63-bit length bounds of the Rust implementation), `create_diff`
succeeds with delta bytes such that `apply_diff(old, delta)` succeeds and
returns exactly `new`. -/
theorem applyDiff_createDiff (old new : Bytes)
    (hold : old.length < 9223372036854775808)
    (hnew : new.length < 9223372036854775808) :
    applyDiff old (createDiff old new) = .ok new := by
  unfold applyDiff createDiff
  rw [applyDiffF_encode old _ _ 0 (le_refl _) ?hwf]
  · rw [execGroups_createGroups old new.length new 0 (by omega) (by omega)]
  case hwf =>
    intro g hg
    have := createGroups_wf old new.length new 0 (by omega) (by omega) g hg
    exact ⟨by omega, by omega, by omega⟩

/-! ## Manifest data model (`crates/graft-core/src/utils/manifest.rs`)

`ManifestEntry` is the three-variant tagged enum; `Manifest` is the
versioned record.  Hashes and paths are strings, as in the source. -/

/-- `ManifestEntry`: a single patch operation. -/
inductive ManifestEntry where
  | Patch (file original_hash diff_hash final_hash : String)
  | Add (file final_hash : String)
  | Delete (file original_hash : String)
deriving DecidableEq

/-- `ManifestEntry::file()`: the shared relative-path accessor. -/
def ManifestEntry.file : ManifestEntry → String
  | .Patch f _ _ _ => f
  | .Add f _ => f
  | .Delete f _ => f

/-- `Manifest`: the versioned catalog of operations.  `version` models the
Rust `u32` (values < 2^32). -/
structure Manifest where
  version : Nat
  title : Option String
  allow_restricted : Bool
  entries : List ManifestEntry
deriving DecidableEq

/-! ## JSON (de)serialization semantics of the manifest

The source derives `Serialize`/`Deserialize` with
`#[serde(tag = "operation", rename_all = "lowercase")]` on the entry enum,
`#[serde(skip_serializing_if = "Option::is_none")]` on `title` and
`#[serde(default, skip_serializing_if = "std::ops::Not::not")]` on
`allow_restricted`.  We model the derive semantics at the JSON value
level; the text codec (`serde_json` pretty printing and parsing) is an
external crate and is treated as a faithful value/text bijection.  JSON
numbers are modelled as the nonnegative integers that can appear in a
manifest document (all numeric fields are `u32`). -/

/-- A JSON document value. -/
inductive Json where
  | null
  | bool (b : Bool)
  | num (n : Nat)
  | str (s : String)
  | arr (xs : List Json)
  | obj (fields : List (String × Json))

/-- Serialize one entry: the `operation` tag first, then the variant fields
in declaration order. -/
def entryToJson : ManifestEntry → Json
  | .Patch f oh dh fh =>
    .obj [("operation", .str "patch"), ("file", .str f), ("original_hash", .str oh),
          ("diff_hash", .str dh), ("final_hash", .str fh)]
  | .Add f fh =>
    .obj [("operation", .str "add"), ("file", .str f), ("final_hash", .str fh)]
  | .Delete f oh =>
    .obj [("operation", .str "delete"), ("file", .str f), ("original_hash", .str oh)]

/-- Serialize a manifest: `title` omitted when absent, `allow_restricted`
omitted when false (the serde `skip_serializing_if` attributes). -/
def manifestToJson (m : Manifest) : Json :=
  .obj ([("version", .num m.version)] ++
    (match m.title with | some t => [("title", .str t)] | none => []) ++
    (if m.allow_restricted then [("allow_restricted", .bool true)] else []) ++
    [("entries", .arr (m.entries.map entryToJson))])

/-- Deserialize a JSON string value. -/
def asStr : Json → Except String String
  | .str s => .ok s
  | _ => .error "invalid type: expected a string"

/-- Deserialize a `u32` value (serde rejects out-of-range integers). -/
def asU32 : Json → Except String Nat
  | .num n => if n < 4294967296 then .ok n else .error "invalid value: integer out of range"
  | _ => .error "invalid type: expected u32"

/-- Deserialize a boolean value. -/
def asBool : Json → Except String Bool
  | .bool b => .ok b
  | _ => .error "invalid type: expected a boolean"

/-- Look up a required string field of an object. -/
def reqStr (fs : List (String × Json)) (k : String) : Except String String :=
  match List.lookup k fs with
  | some j => asStr j
  | none => .error ("missing field " ++ k)

/-- Deserialize one entry from its internally `operation`-tagged object;
unknown extra fields are ignored, as serde does by default. -/
def entryFromJson : Json → Except String ManifestEntry
  | .obj fs =>
    match List.lookup "operation" fs with
    | some (.str "patch") => do
      let f ← reqStr fs "file"
      let oh ← reqStr fs "original_hash"
      let dh ← reqStr fs "diff_hash"
      let fh ← reqStr fs "final_hash"
      pure (.Patch f oh dh fh)
    | some (.str "add") => do
      let f ← reqStr fs "file"
      let fh ← reqStr fs "final_hash"
      pure (.Add f fh)
    | some (.str "delete") => do
      let f ← reqStr fs "file"
      let oh ← reqStr fs "original_hash"
      pure (.Delete f oh)
    | some _ => .error "unknown variant of operation"
    | none => .error "missing field operation"
  | _ => .error "invalid type: expected an entry object"

/-- Deserialize a manifest document: `version` and `entries` required,
`title` optional (absent or null is `None`), `allow_restricted` defaulted
to false; the version field is range-checked as a `u32` but its value is
otherwise not inspected. -/
def manifestFromJson : Json → Except String Manifest
  | .obj fs => do
    let v ← (match List.lookup "version" fs with
      | some j => asU32 j
      | none => .error "missing field version")
    let t ← (match List.lookup "title" fs with
      | some .null => .ok none
      | some j => (asStr j).map some
      | none => .ok (none : Option String))
    let ar ← (match List.lookup "allow_restricted" fs with
      | some j => asBool j
      | none => .ok false)
    let es ← (match List.lookup "entries" fs with
      | some (.arr xs) => xs.mapM entryFromJson
      | some _ => .error "invalid type: expected a sequence"
      | none => .error "missing field entries")
    pure ⟨v, t, ar, es⟩
  | _ => .error "invalid type: expected a manifest object"

/-- `Manifest::load`: read the file (`none` models a missing or unreadable
file) and deserialize it.  The source performs no version check here. -/
def Manifest.load (doc : Option Json) : Except String Manifest :=
  match doc with
  | none => .error "failed to read manifest file"
  | some j => manifestFromJson j

/-- `Manifest::save`: serialize to the JSON document that is written out. -/
def Manifest.save (m : Manifest) : Json := manifestToJson m

theorem entryFromJson_entryToJson (e : ManifestEntry) :
    entryFromJson (entryToJson e) = .ok e := by
  cases e <;> rfl

theorem mapM_loop_entryFromJson (es : List ManifestEntry) :
    ∀ acc, List.mapM.loop entryFromJson (es.map entryToJson) acc = .ok (acc.reverse ++ es) := by
  induction es with
  | nil => intro acc; simp [List.mapM.loop, pure, Except.pure]
  | cons e es ih =>
    intro acc
    simp [List.mapM.loop, entryFromJson_entryToJson, ih, bind, Except.bind]

theorem manifestFromJson_manifestToJson (m : Manifest) (h : m.version < 4294967296) :
    manifestFromJson (manifestToJson m) = .ok m := by
  obtain ⟨v, t, ar, es⟩ := m
  cases t <;> cases ar <;>
    simp [manifestToJson, manifestFromJson, asU32, asBool, asStr, List.lookup, h,
      mapM_loop_entryFromJson, List.mapM, Except.map, bind, Except.bind, pure,
      Except.pure, Functor.map]

/-! ## Path restrictions (`crates/graft-core/src/path_restrictions.rs`)

The policy is compiled per platform by `cfg(target_os)`; the Linux build
is modelled (cross-platform blocked extensions plus the Linux lists).  The
filesystem-dependent `Path::canonicalize` is an explicit parameter
`canon`; `canonicalize` failing (file does not exist) is `none`, in which
case the joined path is used as in the source.  `str::to_lowercase` is
modelled on its ASCII fragment, which covers every blocked extension. -/

/-- `RestrictionViolation`: one reason a manifest path is refused. -/
inductive RestrictionViolation where
  | PathTraversal (path : String)
  | ProtectedPath (path reason : String)
  | BlockedExtension (path extension : String)
deriving DecidableEq

/-- Does a character list contain two consecutive dots? -/
def hasDotDot : List Char → Bool
  | '.' :: '.' :: _ => true
  | _ :: t => hasDotDot t
  | [] => false

/-- `file.contains("..")`. -/
def containsDotDot (s : String) : Bool := hasDotDot s.data

/-- Split a character list on `/` (the Unix path separator). -/
def splitSlashGo : List Char → List Char → List (List Char)
  | [], cur => [cur.reverse]
  | c :: cs, cur => if c = '/' then cur.reverse :: splitSlashGo cs [] else splitSlashGo cs (c :: cur)

/-- Does any slash-separated path component equal `..`?  (On Unix,
`Path::components` yields `ParentDir` exactly for the component `..`.) -/
def hasParentComponent (s : String) : Bool :=
  (splitSlashGo s.data []).any (fun c => c = ['.', '.'])

/-- `check_path_traversal`: reject `..` components, then a literal `..`
substring. -/
def checkPathTraversal (file : String) : Except RestrictionViolation Unit :=
  if hasParentComponent file then .error (.PathTraversal file)
  else if containsDotDot file then .error (.PathTraversal file)
  else .ok ()

/-- Character-list front-match test. -/
def startsWithChars : List Char → List Char → Bool
  | [], _ => true
  | p :: ps, s =>
    match s with
    | [] => false
    | c :: cs => p == c && startsWithChars ps cs

/-- `str::starts_with`. -/
def startsWithStr (s pre : String) : Bool := startsWithChars pre.data s.data

/-- `str::ends_with`. -/
def endsWithStr (s suf : String) : Bool := startsWithChars suf.data.reverse s.data.reverse

/-- ASCII lowercasing of `str::to_lowercase`. -/
def toLowerAscii (s : String) : String := ⟨s.data.map Char.toLower⟩

/-- `BLOCKED_EXTENSIONS_CROSS_PLATFORM`. -/
def blockedExtensionsCrossPlatform : List String := [".sh", ".bin"]

/-- `BLOCKED_EXTENSIONS_LINUX`. -/
def blockedExtensionsLinux : List String := [".so", ".ko"]

/-- `check_blocked_extension`: case-insensitive suffix match against the
cross-platform list, then the platform list, reporting the first hit. -/
def checkBlockedExtension (file : String) : Except RestrictionViolation Unit :=
  match blockedExtensionsCrossPlatform.find? (fun ext => endsWithStr (toLowerAscii file) ext) with
  | some ext => .error (.BlockedExtension file ext)
  | none =>
    match blockedExtensionsLinux.find? (fun ext => endsWithStr (toLowerAscii file) ext) with
    | some ext => .error (.BlockedExtension file ext)
    | none => .ok ()

/-- Scan the protected directory list in order, honoring the
`/usr/local` and `/var/games` exceptions. -/
def protScan (path : String) : List String → Option String
  | [] => none
  | pre :: rest =>
    if startsWithStr path pre then
      if pre == "/usr" && startsWithStr path "/usr/local" then protScan path rest
      else if pre == "/var" && startsWithStr path "/var/games" then protScan path rest
      else some "Cannot patch system directories"
    else protScan path rest

/-- `is_protected_path` (Linux build). -/
def isProtectedPath (path : String) : Option String :=
  protScan path ["/usr", "/bin", "/sbin", "/lib", "/lib64", "/etc", "/var", "/boot", "/opt"]

/-- `check_protected_path`: canonicalize when possible, fall back to the
joined path, then test the protected list. -/
def checkProtectedPath (canon : String → Option String) (file target : String) :
    Except RestrictionViolation Unit :=
  let joined := target ++ "/" ++ file
  let resolved := (canon joined).getD joined
  match isProtectedPath resolved with
  | some reason => .error (.ProtectedPath file reason)
  | none => .ok ()

/-- `check_path`: the three per-entry checks in order, stopping at the
first failure (`?` operators in the source). -/
def checkPath (canon : String → Option String) (file target : String) :
    Except RestrictionViolation Unit := do
  checkPathTraversal file
  checkBlockedExtension file
  checkProtectedPath canon file target

/-- The violation-collecting loop body of `check_manifest`. -/
def collectViolations (canon : String → Option String) (target : String) :
    List ManifestEntry → List RestrictionViolation
  | [] => []
  | e :: es =>
    match checkPath canon e.file target with
    | .error v => v :: collectViolations canon target es
    | .ok _ => collectViolations canon target es

/-- `check_manifest`: bypass everything under `allow_restricted`, else
collect one violation per failing entry and fail when any were found. -/
def checkManifest (canon : String → Option String) (m : Manifest) (target : String) :
    Except (List RestrictionViolation) Unit :=
  if m.allow_restricted then .ok ()
  else
    let violations := collectViolations canon target m.entries
    if violations.isEmpty then .ok () else .error violations

theorem collectViolations_mem (canon : String → Option String) (target : String)
    (es : List ManifestEntry) (e : ManifestEntry) (he : e ∈ es) (v : RestrictionViolation)
    (hv : checkPath canon e.file target = .error v) :
    v ∈ collectViolations canon target es := by
  induction es with
  | nil => cases he
  | cons e0 es ih =>
    rcases List.mem_cons.mp he with rfl | hmem
    · unfold collectViolations
      rw [hv]
      exact List.mem_cons_self _ _
    · unfold collectViolations
      cases hc : checkPath canon e0.file target with
      | error v0 => exact List.mem_cons_of_mem _ (ih hmem)
      | ok _ => exact ih hmem

theorem checkManifest_error_of_mem (canon : String → Option String) (m : Manifest)
    (target : String) (har : m.allow_restricted = false) (e : ManifestEntry)
    (he : e ∈ m.entries) (v : RestrictionViolation)
    (hv : checkPath canon e.file target = .error v) :
    ∃ vs, checkManifest canon m target = .error vs ∧ v ∈ vs := by
  have hmem := collectViolations_mem canon target m.entries e he v hv
  refine ⟨collectViolations canon target m.entries, ?_, hmem⟩
  unfold checkManifest
  rw [har]
  simp only [Bool.false_eq_true, if_false]
  rw [if_neg ?hne]
  case hne =>
    intro hemp
    rw [List.isEmpty_iff] at hemp
    rw [hemp] at hmem
    cases hmem

/-! ## File-system model and the patch engine

A directory's regular-file contents are a map from relative path strings
to byte sequences.  The target directory, the unpacked patch bundle's
`diffs/` and `files/` subtrees, and the `.patch-backup/` directory are
separate maps (the backup directory lives inside the target on disk, but
the atomicity contract compares target contents modulo the backup
directory, which this separation realizes).  File reads of existing files
and file writes always succeed in the model; transient I/O failures are
outside it. -/

/-- A directory, as a map from relative path to file content. -/
abbrev FS := String → Option Bytes

/-- The empty directory. -/
def fsEmpty : FS := fun _ => none

/-- Write (create or overwrite) a file. -/
def fsSet (fs : FS) (k : String) (v : Bytes) : FS :=
  fun x => if x = k then some v else fs x

/-- Remove a file. -/
def fsErase (fs : FS) (k : String) : FS :=
  fun x => if x = k then none else fs x

/-- `PatchError` (`crates/graft-core/src/patch/error.rs`). -/
inductive PatchError where
  | ManifestNotFound
  | DiffNotFound (file : String)
  | FileNotFound (file : String)
  | ValidationFailed (file reason : String)
  | BackupFailed (file reason : String)
  | ApplyFailed (file reason : String)
  | VerificationFailed (file expected actual : String)
  | RollbackFailed (reason : String)
  | ManifestError (reason : String)
  | RestrictedPaths (violations : List RestrictionViolation)
deriving DecidableEq

/-- Is this error the `VerificationFailed` variant? -/
def PatchError.isVerificationFailed : PatchError → Bool
  | .VerificationFailed _ _ _ => true
  | _ => false

/-! ### Pre-apply validation (`crates/graft-core/src/patch/validate.rs`,
`validate_entries`; in the source under src/) -/

/-- The per-entry body of the `validate_entries` loop. -/
def validateEntry (target : FS) : ManifestEntry → Except PatchError Unit
  | .Patch file original_hash _ _ =>
    match target file with
    | none => .error (.ValidationFailed file "file not found in target")
    | some data =>
      if hashBytes data == original_hash then .ok ()
      else .error (.ValidationFailed file
        ("hash mismatch: expected " ++ original_hash ++ ", got " ++ hashBytes data))
  | .Add file _ =>
    match target file with
    | some _ => .error (.ValidationFailed file "file already exists in target")
    | none => .ok ()
  | .Delete file original_hash =>
    match target file with
    | none => .ok ()
    | some data =>
      if hashBytes data == original_hash then .ok ()
      else .error (.ValidationFailed file
        ("hash mismatch: expected " ++ original_hash ++ ", got " ++ hashBytes data))

/-- `validate_entries`: the entries in order, stopping at the first
failure.  (Progress callbacks carry no state and are dropped.) -/
def validateEntries (target : FS) : List ManifestEntry → Except PatchError Unit
  | [] => .ok ()
  | e :: es =>
    match validateEntry target e with
    | .error pe => .error pe
    | .ok _ => validateEntries target es

/-! ### Backup and rollback (`crates/graft-core/src/patch/backup.rs`; the
`backup_file` / `restore_file` helpers live in `utils/file_ops.rs`, which
is not under src/.  Modelled from the spec §4.8: they copy the file's
bytes between the target and the backup directory, preserving the
relative path.) -/

/-- `backup_entries`: copy the target file into the backup for `Patch`
and `Delete` entries whose target file exists; `Add` entries are skipped. -/
def backupEntries (target : FS) : List ManifestEntry → FS → FS
  | [], backup => backup
  | e :: es, backup =>
    match e with
    | .Patch file _ _ _ | .Delete file _ =>
      match target file with
      | some data => backupEntries target es (fsSet backup file data)
      | none => backupEntries target es backup
    | .Add _ _ => backupEntries target es backup

/-- `rollback`: undo the given (applied) entries in the order presented,
returning the final target state together with the result; a `Patch`
entry whose backup is missing fails with `RollbackFailed` and stops. -/
def rollbackList (backup : FS) : List ManifestEntry → FS → (Except PatchError Unit) × FS
  | [], target => (.ok (), target)
  | e :: es, target =>
    match e with
    | .Patch file _ _ _ =>
      match backup file with
      | some data => rollbackList backup es (fsSet target file data)
      | none =>
        (.error (.RollbackFailed ("failed to restore '" ++ file ++ "': backup file not found")),
          target)
    | .Delete file _ =>
      match backup file with
      | some data => rollbackList backup es (fsSet target file data)
      | none => rollbackList backup es target
    | .Add file _ =>
      match target file with
      | some _ => rollbackList backup es (fsErase target file)
      | none => rollbackList backup es target

/-! ### The apply engine

`apply_entry` below is translated from `src/src/patch/apply.rs` (under
src/): it executes one operation and performs no hash verification.  The
graft-core crate re-exports its own `apply_entry` and the `apply_entries`
driver from `patch/apply.rs`, and `verify_entry` from `patch/verify.rs`;
those two files are not under src/, so they are modelled from the spec
(§4.7 item 4 and §4.9). -/

/-- `apply_entry` (`src/src/patch/apply.rs`): execute a single operation.
Every error is produced before the operation's write; the function does
not rehash or verify anything. -/
def applyEntry (patchDiffs patchFiles : FS) (target : FS) :
    ManifestEntry → Except PatchError FS
  | .Patch file _ _ _ =>
    match target file with
    | none => .error (.ValidationFailed file "target file not found")
    | some original_data =>
      match patchDiffs (file ++ ".diff") with
      | none => .error (.ValidationFailed file "diff file not found in patch")
      | some diff_data =>
        match applyDiff original_data diff_data with
        | .error e => .error (.ApplyFailed file ("failed to apply diff: " ++ e))
        | .ok patched_data => .ok (fsSet target file patched_data)
  | .Add file _ =>
    match patchFiles file with
    | none => .error (.ValidationFailed file "source file not found in patch")
    | some data => .ok (fsSet target file data)
  | .Delete file _ =>
    match target file with
    | some _ => .ok (fsErase target file)
    | none => .ok target

/-- Modelled from the spec: `verify_entry` (graft-core `patch/verify.rs`,
not under src/), §4.7 item 4 — `Patch`/`Add`: the file exists and hashes
to `final_hash`; `Delete`: the file does not exist.  A mismatch is
`VerificationFailed {file, expected, actual}`. -/
def verifyEntry (target : FS) : ManifestEntry → Except PatchError Unit
  | .Patch file _ _ final_hash =>
    match target file with
    | none => .error (.VerificationFailed file final_hash "file not found")
    | some data =>
      if hashBytes data == final_hash then .ok ()
      else .error (.VerificationFailed file final_hash (hashBytes data))
  | .Add file final_hash =>
    match target file with
    | none => .error (.VerificationFailed file final_hash "file not found")
    | some data =>
      if hashBytes data == final_hash then .ok ()
      else .error (.VerificationFailed file final_hash (hashBytes data))
  | .Delete file _ =>
    match target file with
    | some data => .error (.VerificationFailed file "deleted" (hashBytes data))
    | none => .ok ()

/-- Modelled from the spec: graft-core `apply_entry` (§4.9) — execute the
operation, then immediately verify its post-condition.  A verification
failure happens after the operation's write, so the mutated state is
returned alongside the error. -/
def applyEntryChecked (patchDiffs patchFiles : FS) (target : FS) (e : ManifestEntry) :
    (Except PatchError Unit) × FS :=
  match applyEntry patchDiffs patchFiles target e with
  | .error pe => (.error pe, target)
  | .ok t2 =>
    match verifyEntry t2 e with
    | .error pe => (.error pe, t2)
    | .ok _ => (.ok (), t2)

/-- Modelled from the spec: the `apply_entries` transactional driver
(§4.9) — entries in order; each success is appended to the applied list;
on the first failure, roll back the applied list and surface the original
error (a rollback error is logged, the original error is returned). -/
def applyEntriesGo (patchDiffs patchFiles backup : FS) :
    List ManifestEntry → FS → List ManifestEntry → (Except PatchError Unit) × FS
  | [], target, _ => (.ok (), target)
  | e :: es, target, applied =>
    match applyEntryChecked patchDiffs patchFiles target e with
    | (.ok _, t2) => applyEntriesGo patchDiffs patchFiles backup es t2 (applied ++ [e])
    | (.error pe, t2) => (.error pe, (rollbackList backup applied t2).2)

/-- Modelled from the spec: `apply_entries` starts with an empty applied
list. -/
def applyEntries (patchDiffs patchFiles backup : FS) (entries : List ManifestEntry)
    (target : FS) : (Except PatchError Unit) × FS :=
  applyEntriesGo patchDiffs patchFiles backup entries target []

/-- `PatchRunner::apply` (`crates/graft-gui/src/runner.rs`): the apply
pipeline — path-restriction check, `validate_entries`, `backup_entries`,
`apply_entries`.  Returns the result, the final target state, and the
backup directory state. -/
def runnerApply (canon : String → Option String) (targetPath : String) (m : Manifest)
    (patchDiffs patchFiles : FS) (target : FS) :
    (Except PatchError Unit) × FS × FS :=
  match checkManifest canon m targetPath with
  | .error vs => (.error (.RestrictedPaths vs), target, fsEmpty)
  | .ok _ =>
    match validateEntries target m.entries with
    | .error pe => (.error pe, target, fsEmpty)
    | .ok _ =>
      let backup := backupEntries target m.entries fsEmpty
      let ra := applyEntries patchDiffs patchFiles backup m.entries target
      (ra.1, ra.2, backup)

/-! ### Atomicity of the apply pipeline

The invariants: `appliedInv` records what validation and the backup phase
guarantee about each entry (a `Patch` file is backed up with its pre-apply
content, a `Delete` file's backup equals its pre-apply presence, an `Add`
file was absent); `untouchedBy` says an entry's rollback action leaves a
key alone; the pristine hypothesis says keys no applied entry touches
still hold their pre-apply content. -/

/-- Is this entry a `Patch` or `Delete` (the kinds the backup phase copies)? -/
def isPatchOrDelete : ManifestEntry → Bool
  | .Add _ _ => false
  | _ => true

/-- What validation plus the backup phase guarantee for each entry,
relative to the pre-apply target `T0` and the backup `backup`. -/
def appliedInv (backup T0 : FS) (A : List ManifestEntry) : Prop :=
  ∀ e ∈ A,
    match e with
    | .Patch f _ _ _ => backup f = T0 f ∧ (backup f).isSome = true
    | .Delete f _ => backup f = T0 f
    | .Add f _ => T0 f = none

/-- The rollback action of `e` leaves key `k` untouched: a different file,
or a `Delete` with no backup (its restore is skipped). -/
def untouchedBy (backup : FS) (e : ManifestEntry) (k : String) : Prop :=
  e.file ≠ k ∨ (backup k = none ∧ (match e with | .Delete _ _ => True | _ => False))

theorem rollbackList_restores (backup T0 : FS) :
    ∀ (A : List ManifestEntry) (T : FS),
    appliedInv backup T0 A →
    (∀ k, (∀ e ∈ A, untouchedBy backup e k) → T k = T0 k) →
    (rollbackList backup A T).1 = .ok () ∧ ∀ k, (rollbackList backup A T).2 k = T0 k := by
  intro A
  induction A with
  | nil =>
    intro T _ hT
    exact ⟨rfl, fun k => hT k (fun e he => absurd he (List.not_mem_nil e))⟩
  | cons e A2 ih =>
    intro T hinv hT
    have hinv2 : appliedInv backup T0 A2 := fun e2 he2 => hinv e2 (List.mem_cons_of_mem _ he2)
    have hinve := hinv e (List.mem_cons_self _ _)
    cases e with
    | Patch f oh dh fh =>
      simp only [appliedInv] at hinve
      obtain ⟨hbf, hbs⟩ := hinve
      obtain ⟨v, hv⟩ := Option.isSome_iff_exists.mp hbs
      rw [rollbackList, hv]
      refine ih (fsSet T f v) hinv2 ?_
      intro k hk
      by_cases hkf : k = f
      · subst hkf
        have hset : fsSet T k v k = some v := by simp [fsSet]
        rw [hset, ← hbf, hv]
      · simp only [fsSet, if_neg hkf]
        refine hT k ?_
        intro e2 he2
        rcases List.mem_cons.mp he2 with rfl | hmem
        · exact Or.inl (by simp [ManifestEntry.file]; exact fun h => hkf h.symm)
        · exact hk e2 hmem
    | Delete f oh =>
      simp only [appliedInv] at hinve
      cases hv : backup f with
      | some v =>
        rw [rollbackList, hv]
        refine ih (fsSet T f v) hinv2 ?_
        intro k hk
        by_cases hkf : k = f
        · subst hkf
          have hset : fsSet T k v k = some v := by simp [fsSet]
          rw [hset, ← hinve, hv]
        · simp only [fsSet, if_neg hkf]
          refine hT k ?_
          intro e2 he2
          rcases List.mem_cons.mp he2 with rfl | hmem
          · exact Or.inl (by simp [ManifestEntry.file]; exact fun h => hkf h.symm)
          · exact hk e2 hmem
      | none =>
        rw [rollbackList, hv]
        refine ih T hinv2 ?_
        intro k hk
        refine hT k ?_
        intro e2 he2
        rcases List.mem_cons.mp he2 with rfl | hmem
        · by_cases hkf : k = f
          · subst hkf
            exact Or.inr ⟨hv, trivial⟩
          · exact Or.inl (by simp [ManifestEntry.file]; exact fun h => hkf h.symm)
        · exact hk e2 hmem
    | Add f fh =>
      simp only [appliedInv] at hinve
      have hstep : ∀ T2 : FS, (∀ k, k ≠ f → T2 k = T k) → T2 f = none →
          (rollbackList backup A2 T2).1 = .ok () ∧
            ∀ k, (rollbackList backup A2 T2).2 k = T0 k := by
        intro T2 hother hf
        refine ih T2 hinv2 ?_
        intro k hk
        by_cases hkf : k = f
        · subst hkf
          rw [hf, hinve]
        · rw [hother k hkf]
          refine hT k ?_
          intro e2 he2
          rcases List.mem_cons.mp he2 with rfl | hmem
          · exact Or.inl (by simp [ManifestEntry.file]; exact fun h => hkf h.symm)
          · exact hk e2 hmem
      cases hv : T f with
      | some v =>
        rw [rollbackList, hv]
        exact hstep (fsErase T f) (fun k hkf => by simp [fsErase, if_neg hkf])
          (by simp [fsErase])
      | none =>
        rw [rollbackList, hv]
        exact hstep T (fun _ _ => rfl) hv

theorem applyEntry_other (pd pf T : FS) (e : ManifestEntry) (T2 : FS)
    (h : applyEntry pd pf T e = .ok T2) : ∀ k, k ≠ e.file → T2 k = T k := by
  intro k hk
  cases e with
  | Patch f oh dh fh =>
    simp only [ManifestEntry.file] at hk
    rw [applyEntry] at h
    cases h0 : T f with
    | none => rw [h0] at h; cases h
    | some od =>
      rw [h0] at h
      dsimp only at h
      cases h1 : pd (f ++ ".diff") with
      | none => rw [h1] at h; cases h
      | some dd =>
        rw [h1] at h
        dsimp only at h
        cases h2 : applyDiff od dd with
        | error er => rw [h2] at h; cases h
        | ok patched =>
          rw [h2] at h
          dsimp only at h
          cases h
          simp [fsSet, if_neg hk]
  | Add f fh =>
    simp only [ManifestEntry.file] at hk
    rw [applyEntry] at h
    cases h0 : pf f with
    | none => rw [h0] at h; cases h
    | some data =>
      rw [h0] at h
      dsimp only at h
      cases h
      simp [fsSet, if_neg hk]
  | Delete f oh =>
    simp only [ManifestEntry.file] at hk
    rw [applyEntry] at h
    cases h0 : T f with
    | none => rw [h0] at h; dsimp only at h; cases h; rfl
    | some data =>
      rw [h0] at h
      dsimp only at h
      cases h
      simp [fsErase, if_neg hk]

theorem verifyEntry_error_isVer (T : FS) (e : ManifestEntry) (pe : PatchError)
    (h : verifyEntry T e = .error pe) : pe.isVerificationFailed = true := by
  cases e with
  | Patch f oh dh fh =>
    rw [verifyEntry] at h
    cases h0 : T f with
    | none => rw [h0] at h; cases h; rfl
    | some data =>
      rw [h0] at h
      dsimp only at h
      by_cases hh : (hashBytes data == fh) = true
      · rw [if_pos hh] at h; cases h
      · rw [if_neg hh] at h; cases h; rfl
  | Add f fh =>
    rw [verifyEntry] at h
    cases h0 : T f with
    | none => rw [h0] at h; cases h; rfl
    | some data =>
      rw [h0] at h
      dsimp only at h
      by_cases hh : (hashBytes data == fh) = true
      · rw [if_pos hh] at h; cases h
      · rw [if_neg hh] at h; cases h; rfl
  | Delete f oh =>
    rw [verifyEntry] at h
    cases h0 : T f with
    | none => rw [h0] at h; cases h
    | some data => rw [h0] at h; dsimp only at h; cases h; rfl

theorem applyEntryChecked_other (pd pf T : FS) (e : ManifestEntry) :
    ∀ k, k ≠ e.file → (applyEntryChecked pd pf T e).2 k = T k := by
  intro k hk
  unfold applyEntryChecked
  cases ha : applyEntry pd pf T e with
  | error pe => rfl
  | ok T2 =>
    dsimp only
    cases hv : verifyEntry T2 e with
    | error pe =>
      dsimp only
      exact applyEntry_other pd pf T e T2 ha k hk
    | ok _ =>
      dsimp only
      exact applyEntry_other pd pf T e T2 ha k hk

theorem applyEntryChecked_error_state (pd pf T : FS) (e : ManifestEntry) (pe : PatchError)
    (h : (applyEntryChecked pd pf T e).1 = .error pe)
    (hv : pe.isVerificationFailed = false) :
    (applyEntryChecked pd pf T e).2 = T := by
  unfold applyEntryChecked at h ⊢
  cases ha : applyEntry pd pf T e with
  | error pe0 => rfl
  | ok T2 =>
    rw [ha] at h
    dsimp only at h ⊢
    cases hve : verifyEntry T2 e with
    | error pe1 =>
      rw [hve] at h
      dsimp only at h
      cases h
      exact absurd (verifyEntry_error_isVer T2 e pe hve) (by rw [hv]; exact Bool.false_ne_true)
    | ok _ =>
      rw [hve] at h
      dsimp only at h
      cases h

theorem applyEntryChecked_delete_none (pd pf T : FS) (f oh : String)
    (h : (applyEntryChecked pd pf T (.Delete f oh)).1 = .ok ()) :
    (applyEntryChecked pd pf T (.Delete f oh)).2 f = none := by
  unfold applyEntryChecked at h ⊢
  cases ha : applyEntry pd pf T (.Delete f oh) with
  | error pe => rw [ha] at h; dsimp only at h; cases h
  | ok T2 =>
    rw [ha] at h
    dsimp only at h ⊢
    have hve : verifyEntry T2 (.Delete f oh) =
        (match T2 f with
          | some data => Except.error (.VerificationFailed f "deleted" (hashBytes data))
          | none => Except.ok ()) := rfl
    cases hT2 : T2 f with
    | some d =>
      rw [hve, hT2] at h
      dsimp only at h
      cases h
    | none =>
      rw [hve, hT2]
      dsimp only
      exact hT2

/-- The transactional loop: if the driver returns a non-verification
error, the final target state equals the pre-apply state pointwise. -/
theorem applyEntriesGo_atomic (patchDiffs patchFiles backup T0 : FS) :
    ∀ (es : List ManifestEntry) (T : FS) (A : List ManifestEntry),
    appliedInv backup T0 es →
    appliedInv backup T0 A →
    (∀ k, (∀ e ∈ A, untouchedBy backup e k) → T k = T0 k) →
    ∀ pe, (applyEntriesGo patchDiffs patchFiles backup es T A).1 = .error pe →
      pe.isVerificationFailed = false →
      ∀ k, (applyEntriesGo patchDiffs patchFiles backup es T A).2 k = T0 k := by
  intro es
  induction es with
  | nil =>
    intro T A _ _ _ pe hr _
    cases hr
  | cons e es2 ih =>
    intro T A hes hA hT pe hr hver
    have hes2 : appliedInv backup T0 es2 := fun e2 he2 => hes e2 (List.mem_cons_of_mem _ he2)
    have hee := hes e (List.mem_cons_self _ _)
    rw [applyEntriesGo] at hr ⊢
    cases hac : applyEntryChecked patchDiffs patchFiles T e with
    | mk r0 t2 =>
      cases r0 with
      | ok _ =>
        rw [hac] at hr
        dsimp only at hr ⊢
        refine ih t2 (A ++ [e]) hes2 ?_ ?_ pe hr hver
        · intro e2 he2
          rcases List.mem_append.mp he2 with hmem | hmem
          · exact hA e2 hmem
          · rw [List.mem_singleton] at hmem
            subst hmem
            exact hee
        · intro k hk
          have hkA : ∀ e2 ∈ A, untouchedBy backup e2 k :=
            fun e2 he2 => hk e2 (List.mem_append.mpr (Or.inl he2))
          have hke : untouchedBy backup e k :=
            hk e (List.mem_append.mpr (Or.inr (List.mem_singleton.mpr rfl)))
          rcases hke with hne | ⟨hbk, hdel⟩
          · have : t2 k = T k := by
              have := applyEntryChecked_other patchDiffs patchFiles T e k (fun h => hne h.symm)
              rw [hac] at this
              exact this
            rw [this]
            exact hT k hkA
          · cases e with
            | Patch f oh dh fh => cases hdel
            | Add f fh => cases hdel
            | Delete f oh =>
              dsimp only at hee
              by_cases hkf : k = f
              · rw [hkf] at hbk
                have hdn : t2 f = none := by
                  have h1 := applyEntryChecked_delete_none patchDiffs patchFiles T f oh
                    (by rw [hac])
                  rw [hac] at h1
                  exact h1
                rw [hkf, hdn, ← hee, hbk]
              · have h2 : t2 k = T k := by
                  have h1 := applyEntryChecked_other patchDiffs patchFiles T (.Delete f oh) k
                    (by simpa [ManifestEntry.file] using hkf)
                  rw [hac] at h1
                  exact h1
                rw [h2]
                exact hT k hkA
      | error pe0 =>
        rw [hac] at hr
        dsimp only at hr ⊢
        cases hr
        have hstate : t2 = T := by
          have := applyEntryChecked_error_state patchDiffs patchFiles T e pe
            (by rw [hac]) hver
          rw [hac] at this
          exact this
        subst hstate
        exact (rollbackList_restores backup T0 A t2 hA hT).2

theorem validateEntries_ok_mem (T0 : FS) :
    ∀ es, validateEntries T0 es = .ok () → ∀ e ∈ es, validateEntry T0 e = .ok () := by
  intro es
  induction es with
  | nil => intro _ e he; cases he
  | cons e0 es2 ih =>
    intro h e he
    rw [validateEntries] at h
    cases hv : validateEntry T0 e0 with
    | error pe => rw [hv] at h; cases h
    | ok _ =>
      rw [hv] at h
      rcases List.mem_cons.mp he with rfl | hmem
      · exact hv
      · exact ih h e hmem

theorem validateEntry_add_none (T0 : FS) (f fh : String)
    (h : validateEntry T0 (.Add f fh) = .ok ()) : T0 f = none := by
  rw [validateEntry] at h
  cases h0 : T0 f with
  | none => rfl
  | some data => rw [h0] at h; cases h

theorem validateEntry_patch_isSome (T0 : FS) (f oh dh fh : String)
    (h : validateEntry T0 (.Patch f oh dh fh) = .ok ()) : (T0 f).isSome = true := by
  rw [validateEntry] at h
  cases h0 : T0 f with
  | none => rw [h0] at h; cases h
  | some data => rfl

theorem backupEntries_sound (T0 : FS) :
    ∀ es (acc : FS), (∀ k v, acc k = some v → T0 k = some v) →
    ∀ k v, backupEntries T0 es acc k = some v → T0 k = some v := by
  intro es
  induction es with
  | nil => intro acc hacc k v h; exact hacc k v h
  | cons e es2 ih =>
    intro acc hacc k v h
    cases e with
    | Patch f oh dh fh =>
      rw [backupEntries] at h
      cases h0 : T0 f with
      | some d =>
        rw [h0] at h
        refine ih (fsSet acc f d) ?_ k v h
        intro k2 v2 hk2
        by_cases hkf : k2 = f
        · subst hkf
          simp [fsSet] at hk2
          rw [h0, hk2]
        · simp only [fsSet, if_neg hkf] at hk2
          exact hacc k2 v2 hk2
      | none =>
        rw [h0] at h
        exact ih acc hacc k v h
    | Delete f oh =>
      rw [backupEntries] at h
      cases h0 : T0 f with
      | some d =>
        rw [h0] at h
        refine ih (fsSet acc f d) ?_ k v h
        intro k2 v2 hk2
        by_cases hkf : k2 = f
        · subst hkf
          simp [fsSet] at hk2
          rw [h0, hk2]
        · simp only [fsSet, if_neg hkf] at hk2
          exact hacc k2 v2 hk2
      | none =>
        rw [h0] at h
        exact ih acc hacc k v h
    | Add f fh =>
      rw [backupEntries] at h
      exact ih acc hacc k v h

theorem backupEntries_keeps (T0 : FS) :
    ∀ es (acc : FS) k v, T0 k = some v → acc k = some v →
    backupEntries T0 es acc k = some v := by
  intro es
  induction es with
  | nil => intro acc k v _ hacc; exact hacc
  | cons e es2 ih =>
    intro acc k v h0 hacc
    cases e with
    | Patch f oh dh fh =>
      rw [backupEntries]
      cases hf : T0 f with
      | some d =>
        refine ih (fsSet acc f d) k v h0 ?_
        by_cases hkf : k = f
        · subst hkf
          rw [h0] at hf
          cases hf
          simp [fsSet]
        · simp only [fsSet, if_neg hkf]
          exact hacc
      | none => exact ih acc k v h0 hacc
    | Delete f oh =>
      rw [backupEntries]
      cases hf : T0 f with
      | some d =>
        refine ih (fsSet acc f d) k v h0 ?_
        by_cases hkf : k = f
        · subst hkf
          rw [h0] at hf
          cases hf
          simp [fsSet]
        · simp only [fsSet, if_neg hkf]
          exact hacc
      | none => exact ih acc k v h0 hacc
    | Add f fh =>
      rw [backupEntries]
      exact ih acc k v h0 hacc

theorem backupEntries_covers (T0 : FS) :
    ∀ es (acc : FS) k v, T0 k = some v →
    (∃ e ∈ es, e.file = k ∧ isPatchOrDelete e = true) →
    backupEntries T0 es acc k = some v := by
  intro es
  induction es with
  | nil =>
    intro acc k v _ hex
    obtain ⟨e, he, _⟩ := hex
    cases he
  | cons e0 es2 ih =>
    intro acc k v h0 hex
    obtain ⟨e, he, hef, hepd⟩ := hex
    cases e0 with
    | Patch f oh dh fh =>
      rw [backupEntries]
      by_cases hkf : f = k
      · subst hkf
        rw [h0]
        exact backupEntries_keeps T0 es2 (fsSet acc f v) f v h0 (by simp [fsSet])
      · cases hf : T0 f with
        | some d =>
          refine ih (fsSet acc f d) k v h0 ?_
          rcases List.mem_cons.mp he with rfl | hmem
          · simp only [ManifestEntry.file] at hef
            exact absurd hef hkf
          · exact ⟨e, hmem, hef, hepd⟩
        | none =>
          refine ih acc k v h0 ?_
          rcases List.mem_cons.mp he with rfl | hmem
          · simp only [ManifestEntry.file] at hef
            exact absurd hef hkf
          · exact ⟨e, hmem, hef, hepd⟩
    | Delete f oh =>
      rw [backupEntries]
      by_cases hkf : f = k
      · subst hkf
        rw [h0]
        exact backupEntries_keeps T0 es2 (fsSet acc f v) f v h0 (by simp [fsSet])
      · cases hf : T0 f with
        | some d =>
          refine ih (fsSet acc f d) k v h0 ?_
          rcases List.mem_cons.mp he with rfl | hmem
          · simp only [ManifestEntry.file] at hef
            exact absurd hef hkf
          · exact ⟨e, hmem, hef, hepd⟩
        | none =>
          refine ih acc k v h0 ?_
          rcases List.mem_cons.mp he with rfl | hmem
          · simp only [ManifestEntry.file] at hef
            exact absurd hef hkf
          · exact ⟨e, hmem, hef, hepd⟩
    | Add f fh =>
      rw [backupEntries]
      refine ih acc k v h0 ?_
      rcases List.mem_cons.mp he with rfl | hmem
      · cases hepd
      · exact ⟨e, hmem, hef, hepd⟩

/-- Validation plus the backup phase establish the per-entry invariant for
all manifest entries. -/
theorem pipelineInv (T0 : FS) (es : List ManifestEntry)
    (hval : ∀ e ∈ es, validateEntry T0 e = .ok ()) :
    appliedInv (backupEntries T0 es fsEmpty) T0 es := by
  intro e he
  cases e with
  | Patch f oh dh fh =>
    have hs := validateEntry_patch_isSome T0 f oh dh fh (hval _ he)
    obtain ⟨v, hv⟩ := Option.isSome_iff_exists.mp hs
    have hb := backupEntries_covers T0 es fsEmpty f v hv ⟨_, he, rfl, rfl⟩
    exact ⟨by rw [hb, hv], by rw [hb]; rfl⟩
  | Delete f oh =>
    cases hv : T0 f with
    | some v =>
      exact (backupEntries_covers T0 es fsEmpty f v hv ⟨_, he, rfl, rfl⟩).trans hv.symm
    | none =>
      cases hb : backupEntries T0 es fsEmpty f with
      | none => dsimp only; rw [hb, hv]
      | some v =>
        have := backupEntries_sound T0 es fsEmpty (fun k v h => by cases h) f v hb
        rw [this] at hv
        cases hv
  | Add f fh =>
    exact validateEntry_add_none T0 f fh (hval _ he)

/-- C1 (amended): atomicity of `PatchRunner::apply` for non-verification
failures — when the pipeline returns any error other than
`VerificationFailed`, the final target state is pointwise equal to the
pre-apply target (the backup directory is separate state).  When the
error is a `VerificationFailed` of the failing entry, that entry's own
write survives the rollback of the previously applied entries (see the
counterexample). -/
theorem runnerApply_atomic (canon : String → Option String) (targetPath : String)
    (m : Manifest) (patchDiffs patchFiles T0 : FS) (pe : PatchError)
    (hr : (runnerApply canon targetPath m patchDiffs patchFiles T0).1 = .error pe)
    (hver : pe.isVerificationFailed = false) :
    ∀ k, (runnerApply canon targetPath m patchDiffs patchFiles T0).2.1 k = T0 k := by
  intro k
  unfold runnerApply at hr ⊢
  cases hcm : checkManifest canon m targetPath with
  | error vs => rfl
  | ok _ =>
    rw [hcm] at hr
    dsimp only at hr ⊢
    cases hve : validateEntries T0 m.entries with
    | error pe0 => rfl
    | ok _ =>
      rw [hve] at hr
      dsimp only at hr ⊢
      have hval := validateEntries_ok_mem T0 m.entries hve
      have hinv := pipelineInv T0 m.entries hval
      exact applyEntriesGo_atomic patchDiffs patchFiles
        (backupEntries T0 m.entries fsEmpty) T0 m.entries T0 [] hinv
        (fun e he => absurd he (List.not_mem_nil e))
        (fun k2 _ => rfl) pe hr hver k

/-! ## Directory scanner (`src/src/utils/dir_scan.rs`)

A directory listing is a list of raw entries: the OS-level file name (a
byte sequence, as `OsString` holds on Unix) and whether the entry is a
regular file.  A Rust `String` is its UTF-8 byte sequence, so
`OsStr::to_str` succeeds exactly on valid UTF-8 names and returns the
same bytes.  `read_dir` or per-entry metadata failures are modelled by a
`none` listing. -/

/-- One entry of a directory listing. -/
structure RawEnt where
  name : List Byte
  isFile : Bool
deriving DecidableEq

/-- Is this byte a UTF-8 continuation byte (0x80..0xBF)? -/
def utf8Cont (b : Byte) : Bool := 128 ≤ b.val && b.val ≤ 191

/-- RFC 3629 UTF-8 validity, as `str::from_utf8` checks it (overlong
encodings and surrogates rejected). -/
def isValidUtf8 : List Byte → Bool
  | [] => true
  | b :: rest =>
    if b.val ≤ 127 then isValidUtf8 rest
    else if 194 ≤ b.val && b.val ≤ 223 then
      match rest with
      | c1 :: r => utf8Cont c1 && isValidUtf8 r
      | _ => false
    else if b.val = 224 then
      match rest with
      | c1 :: c2 :: r => (160 ≤ c1.val && c1.val ≤ 191) && utf8Cont c2 && isValidUtf8 r
      | _ => false
    else if 225 ≤ b.val && b.val ≤ 236 then
      match rest with
      | c1 :: c2 :: r => utf8Cont c1 && utf8Cont c2 && isValidUtf8 r
      | _ => false
    else if b.val = 237 then
      match rest with
      | c1 :: c2 :: r => (128 ≤ c1.val && c1.val ≤ 159) && utf8Cont c2 && isValidUtf8 r
      | _ => false
    else if 238 ≤ b.val && b.val ≤ 239 then
      match rest with
      | c1 :: c2 :: r => utf8Cont c1 && utf8Cont c2 && isValidUtf8 r
      | _ => false
    else if b.val = 240 then
      match rest with
      | c1 :: c2 :: c3 :: r =>
        (144 ≤ c1.val && c1.val ≤ 191) && utf8Cont c2 && utf8Cont c3 && isValidUtf8 r
      | _ => false
    else if 241 ≤ b.val && b.val ≤ 243 then
      match rest with
      | c1 :: c2 :: c3 :: r => utf8Cont c1 && utf8Cont c2 && utf8Cont c3 && isValidUtf8 r
      | _ => false
    else if b.val = 244 then
      match rest with
      | c1 :: c2 :: c3 :: r =>
        (128 ≤ c1.val && c1.val ≤ 143) && utf8Cont c2 && utf8Cont c3 && isValidUtf8 r
      | _ => false
    else false

/-- `OsStr::to_str`: the name as a Rust string (its UTF-8 bytes) when
valid, `None` otherwise. -/
def osStrToStr (name : List Byte) : Option (List Byte) :=
  if isValidUtf8 name then some name else none

/-- Byte-lexicographic strict order (`Vec<String>::sort`). -/
def lexLt : List Byte → List Byte → Bool
  | [], [] => false
  | [], _ :: _ => true
  | _ :: _, [] => false
  | a :: as2, b :: bs2 => if a.val < b.val then true else if b.val < a.val then false else lexLt as2 bs2

/-- Insert a name into a sorted list. -/
def insertSorted (x : List Byte) : List (List Byte) → List (List Byte)
  | [] => [x]
  | y :: ys => if lexLt y x then y :: insertSorted x ys else x :: y :: ys

/-- Sort names byte-lexicographically. -/
def sortNames (l : List (List Byte)) : List (List Byte) := l.foldr insertSorted []

/-- `list_files`: regular files only; a name that is not valid UTF-8 is
skipped by the `if let Some(name)` pattern; the result is sorted.  A
directory read error (`none` listing) aborts with the I/O error. -/
def listFiles (listing : Option (List RawEnt)) : Except String (List (List Byte)) :=
  match listing with
  | none => .error "io error reading directory"
  | some ents =>
    .ok (sortNames (ents.filterMap (fun ent => if ent.isFile then osStrToStr ent.name else none)))

theorem insertSorted_mem (x y : List Byte) :
    ∀ l, y ∈ insertSorted x l ↔ (y = x ∨ y ∈ l) := by
  intro l
  induction l with
  | nil => simp [insertSorted]
  | cons z zs ih =>
    unfold insertSorted
    by_cases hz : lexLt z x = true
    · rw [if_pos hz]
      simp only [List.mem_cons, ih]
      tauto
    · rw [if_neg hz]
      simp only [List.mem_cons]

theorem sortNames_mem (y : List Byte) : ∀ l, y ∈ sortNames l ↔ y ∈ l := by
  intro l
  induction l with
  | nil => simp [sortNames]
  | cons x xs ih =>
    unfold sortNames at ih ⊢
    rw [List.foldr_cons, insertSorted_mem, ih]
    simp

theorem listFiles_names_valid (ents : List RawEnt) (names : List (List Byte))
    (h : listFiles (some ents) = .ok names) :
    ∀ n ∈ names, isValidUtf8 n = true := by
  intro n hn
  rw [listFiles] at h
  cases h
  rw [sortNames_mem] at hn
  obtain ⟨ent, _, hmap⟩ := List.mem_filterMap.mp hn
  by_cases hf : ent.isFile = true
  · rw [if_pos hf] at hmap
    unfold osStrToStr at hmap
    by_cases hv : isValidUtf8 ent.name = true
    · rw [if_pos hv] at hmap
      cases hmap
      exact hv
    · rw [if_neg hv] at hmap
      cases hmap
  · rw [if_neg hf] at hmap
    cases hmap

/-! ## Archive packer (`crates/graft-core/src/archive.rs`
`create_archive_bytes` and `crates/graft-builder/src/archive.rs`
`create_archive` — the two functions are textually identical)

The packer is modelled at the tar-member level: the gzip/tar byte
encodings are the external `flate2`/`tar` crates.  A directory is a list
of named entries in `read_dir` order; `add_directory_contents` walks
files and subdirectories recursively, building forward-slashed member
names under the subtree's archive prefix. -/

mutual
/-- One on-disk entry of the patch bundle directory. -/
inductive Dirent where
  | fileE : String → Bytes → Dirent
  | dirE : String → DirList → Dirent
/-- A directory listing, in `read_dir` order. -/
inductive DirList where
  | nil : DirList
  | cons : Dirent → DirList → DirList
end

mutual
/-- `add_directory_contents` for a single entry. -/
def walkOne (pre : String) : Dirent → List (String × Bytes)
  | .fileE n c => [(pre ++ "/" ++ n, c)]
  | .dirE n es => walkList (pre ++ "/" ++ n) es
/-- `add_directory_contents` over a listing. -/
def walkList (pre : String) : DirList → List (String × Bytes)
  | .nil => []
  | .cons e rest => walkOne pre e ++ walkList pre rest
end

/-- Look up a regular file at the top level of a listing. -/
def findFile (name : String) : DirList → Option Bytes
  | .nil => none
  | .cons (.fileE n c) rest => if n = name then some c else findFile name rest
  | .cons (.dirE _ _) rest => findFile name rest

/-- Look up a subdirectory at the top level of a listing (`is_dir`). -/
def findDir (name : String) : DirList → Option DirList
  | .nil => none
  | .cons (.dirE n es) rest => if n = name then some es else findDir name rest
  | .cons (.fileE _ _) rest => findDir name rest

/-- `create_archive_bytes` / `create_archive`: `manifest.json` first
(required), then the `diffs/` subtree when present, then the `files/`
subtree when present — and nothing else.  Returns the archive members in
order. -/
def createArchiveBytes (root : DirList) : Except String (List (String × Bytes)) :=
  match findFile "manifest.json" root with
  | none => .error "manifest.json not found"
  | some mc =>
    .ok ([("manifest.json", mc)] ++
      (match findDir "diffs" root with | some es => walkList "diffs" es | none => []) ++
      (match findDir "files" root with | some es => walkList "files" es | none => []))

/-! ## Claim theorems, counterexamples and witnesses -/

/-- C1 counterexample: a single `Add` entry whose recorded `final_hash`
does not match the added file's content.  Validation passes (the file is
absent), the copy succeeds, post-verification fails — and the pipeline
returns `VerificationFailed` with the freshly added file still in the
target, which before the call had no file at all.  The claim, as stated
for every error, is false. -/
theorem runnerApply_verification_counterexample :
    (runnerApply (fun _ => none) "/t" ⟨1, none, true, [.Add "f" ""]⟩ fsEmpty
        (fsSet fsEmpty "f" [1]) fsEmpty).1 =
      .error (.VerificationFailed "f" "" (hashBytes [1])) ∧
    (runnerApply (fun _ => none) "/t" ⟨1, none, true, [.Add "f" ""]⟩ fsEmpty
        (fsSet fsEmpty "f" [1]) fsEmpty).2.1 "f" = some [1] ∧
    fsEmpty "f" = (none : Option Bytes) :=
  ⟨rfl, rfl, rfl⟩

/-- C1 witness: a `Patch` entry whose diff file is missing from the
bundle fails during the apply phase with `ValidationFailed`; the theorem
yields that the target still holds its pre-apply content. -/
theorem runnerApply_atomic_witness :
    (runnerApply (fun _ => none) "/t"
        ⟨1, none, true, [.Patch "a" (hashBytes [1]) "x" "y"]⟩
        fsEmpty fsEmpty (fsSet fsEmpty "a" [1])).1 =
      .error (.ValidationFailed "a" "diff file not found in patch") ∧
    (PatchError.ValidationFailed "a" "diff file not found in patch").isVerificationFailed
      = false ∧
    (runnerApply (fun _ => none) "/t"
        ⟨1, none, true, [.Patch "a" (hashBytes [1]) "x" "y"]⟩
        fsEmpty fsEmpty (fsSet fsEmpty "a" [1])).2.1 "a" = fsSet fsEmpty "a" [1] "a" :=
  ⟨rfl, rfl,
    runnerApply_atomic (fun _ => none) "/t"
      ⟨1, none, true, [.Patch "a" (hashBytes [1]) "x" "y"]⟩
      fsEmpty fsEmpty (fsSet fsEmpty "a" [1])
      (.ValidationFailed "a" "diff file not found in patch") rfl rfl "a"⟩

/-- C2 witness: the round-trip evaluated at a concrete pair. -/
theorem applyDiff_createDiff_witness :
    ([5, 6, 7] : Bytes).length < 9223372036854775808 ∧
    ([6, 6, 5, 9] : Bytes).length < 9223372036854775808 ∧
    applyDiff [5, 6, 7] (createDiff [5, 6, 7] [6, 6, 5, 9]) = .ok [6, 6, 5, 9] :=
  ⟨by decide, by decide, applyDiff_createDiff [5, 6, 7] [6, 6, 5, 9] (by decide) (by decide)⟩

/-- C3 counterexample: `apply_entry` adds a file whose hash does not
match the entry's `final_hash` and still returns `Ok` — it never rehashes
the result, contrary to the claim that a mismatch yields
`VerificationFailed`. -/
theorem applyEntry_no_verify_counterexample :
    applyEntry fsEmpty (fsSet fsEmpty "f" [1, 2]) fsEmpty (.Add "f" "") =
      .ok (fsSet fsEmpty "f" [1, 2]) ∧ hashBytes [1, 2] ≠ "" :=
  ⟨rfl, by decide⟩

/-- C3 (amended): `apply_entry` of `src/src/patch/apply.rs` only executes
the operation; it performs no post-hash verification and can never return
`VerificationFailed` (its errors are `ValidationFailed` and `ApplyFailed`
only; post-condition verification lives in `verify_entry`). -/
theorem applyEntry_never_verificationFailed (pd pf t : FS) (e : ManifestEntry)
    (pe : PatchError) (h : applyEntry pd pf t e = .error pe) :
    pe.isVerificationFailed = false := by
  cases e with
  | Patch f oh dh fh =>
    rw [applyEntry] at h
    cases h0 : t f with
    | none => rw [h0] at h; dsimp only at h; cases h; rfl
    | some od =>
      rw [h0] at h
      dsimp only at h
      cases h1 : pd (f ++ ".diff") with
      | none => rw [h1] at h; dsimp only at h; cases h; rfl
      | some dd =>
        rw [h1] at h
        dsimp only at h
        cases h2 : applyDiff od dd with
        | error er => rw [h2] at h; dsimp only at h; cases h; rfl
        | ok patched => rw [h2] at h; dsimp only at h; cases h
  | Add f fh =>
    rw [applyEntry] at h
    cases h0 : pf f with
    | none => rw [h0] at h; dsimp only at h; cases h; rfl
    | some data => rw [h0] at h; dsimp only at h; cases h
  | Delete f oh =>
    rw [applyEntry] at h
    cases h0 : t f with
    | none => rw [h0] at h; dsimp only at h; cases h
    | some d => rw [h0] at h; dsimp only at h; cases h

/-- C3 witness: a failing `apply_entry` call whose error is not
`VerificationFailed`. -/
theorem applyEntry_never_verificationFailed_witness :
    applyEntry fsEmpty fsEmpty fsEmpty (.Patch "a" "x" "y" "z") =
      .error (.ValidationFailed "a" "target file not found") ∧
    (PatchError.ValidationFailed "a" "target file not found").isVerificationFailed = false :=
  ⟨rfl, applyEntry_never_verificationFailed fsEmpty fsEmpty fsEmpty
    (.Patch "a" "x" "y" "z") _ rfl⟩

theorem checkPathTraversal_error (file : String)
    (h : hasParentComponent file = true ∨ containsDotDot file = true) :
    checkPathTraversal file = .error (.PathTraversal file) := by
  unfold checkPathTraversal
  rcases h with h | h
  · rw [if_pos h]
  · by_cases h2 : hasParentComponent file = true
    · rw [if_pos h2]
    · rw [if_neg h2, if_pos h]

theorem checkPath_traversal (canon : String → Option String) (file target : String)
    (h : hasParentComponent file = true ∨ containsDotDot file = true) :
    checkPath canon file target = .error (.PathTraversal file) := by
  unfold checkPath
  rw [checkPathTraversal_error file h]
  rfl

/-- C4: path-traversal policy — with `allow_restricted = false`, every
entry whose path has a `..` component or contains the substring `..`
makes `check_manifest` reject with a violation list containing a
`PathTraversal` for that path; with `allow_restricted = true`,
`check_manifest` accepts regardless of the entries. -/
theorem checkManifest_traversal_policy (canon : String → Option String) (m : Manifest)
    (target : String) :
    (m.allow_restricted = false →
      ∀ e ∈ m.entries, (hasParentComponent e.file = true ∨ containsDotDot e.file = true) →
      ∃ vs, checkManifest canon m target = .error vs ∧ .PathTraversal e.file ∈ vs) ∧
    (m.allow_restricted = true → checkManifest canon m target = .ok ()) := by
  constructor
  · intro har e he htrav
    exact checkManifest_error_of_mem canon m target har e he _
      (checkPath_traversal canon e.file target htrav)
  · intro har
    unfold checkManifest
    rw [har]
    simp

/-- C4 witness: a traversal path is rejected with a `PathTraversal`
violation when restrictions are on, and accepted when
`allow_restricted = true`. -/
theorem checkManifest_traversal_policy_witness :
    (∃ vs, checkManifest (fun _ => none) ⟨1, none, false, [.Add "../x" "h"]⟩ "/t" =
        .error vs ∧ RestrictionViolation.PathTraversal "../x" ∈ vs) ∧
    checkManifest (fun _ => none) ⟨1, none, true, [.Add "../x" "h"]⟩ "/t" = .ok () :=
  ⟨(checkManifest_traversal_policy (fun _ => none) ⟨1, none, false, [.Add "../x" "h"]⟩
      "/t").1 rfl (.Add "../x" "h") (List.mem_singleton.mpr rfl) (Or.inl (by decide)),
    (checkManifest_traversal_policy (fun _ => none) ⟨1, none, true, [.Add "../x" "h"]⟩
      "/t").2 rfl⟩

/-- C5 counterexample: a manifest document with `version = 2` (greater
than the reader's schema version 1) loads successfully — no version
enforcement happens anywhere on the load path, contrary to the claim that
loading must fail with `ManifestError`. -/
theorem manifestLoad_version2_counterexample :
    Manifest.load (some (.obj [("version", .num 2), ("entries", .arr [])])) =
      .ok ⟨2, none, false, []⟩ := rfl

/-- C5 (amended): `Manifest::load` performs no version check — a manifest
with any `u32` version, in particular any version greater than 1, loads
successfully and is returned as parsed. -/
theorem manifestLoad_no_version_enforcement (m : Manifest)
    (hv : m.version < 4294967296) (_hgt : 1 < m.version) :
    Manifest.load (some (Manifest.save m)) = .ok m :=
  manifestFromJson_manifestToJson m hv

/-- C5 witness: a version-2 manifest loads. -/
theorem manifestLoad_no_version_enforcement_witness :
    ((⟨2, none, false, []⟩ : Manifest)).version < 4294967296 ∧
    1 < ((⟨2, none, false, []⟩ : Manifest)).version ∧
    Manifest.load (some (Manifest.save ⟨2, none, false, []⟩)) = .ok ⟨2, none, false, []⟩ :=
  ⟨by decide, by decide,
    manifestLoad_no_version_enforcement ⟨2, none, false, []⟩ (by decide) (by decide)⟩

/-- C6 counterexample: a directory whose only entry is a regular file
with the non-UTF-8 name `[0xFF]` scans successfully to an empty list —
the file is silently omitted, not reported as an I/O error as the claim
requires. -/
theorem listFiles_invalid_name_counterexample :
    listFiles (some [⟨[255], true⟩]) = .ok [] ∧ isValidUtf8 [255] = false :=
  ⟨rfl, by decide⟩

/-- C6 (amended): a directory read error aborts the scan with an I/O
error, but a regular file whose name is not valid UTF-8 is silently
omitted from the (successful) scan result. -/
theorem listFiles_skips_invalid_names :
    listFiles none = .error "io error reading directory" ∧
    ∀ (ents : List RawEnt) (ent : RawEnt), ent ∈ ents → isValidUtf8 ent.name = false →
      ∃ names, listFiles (some ents) = .ok names ∧ ent.name ∉ names := by
  refine ⟨rfl, ?_⟩
  intro ents ent _ hinv
  refine ⟨_, rfl, ?_⟩
  intro hin
  have hval := listFiles_names_valid ents _ rfl ent.name hin
  rw [hinv] at hval
  cases hval

/-- C6 witness: the invalid name `[0xFF]` is omitted from a successful
scan. -/
theorem listFiles_skips_invalid_names_witness :
    (⟨[255], true⟩ : RawEnt) ∈ [(⟨[255], true⟩ : RawEnt)] ∧
    isValidUtf8 ((⟨[255], true⟩ : RawEnt)).name = false ∧
    ∃ names, listFiles (some [(⟨[255], true⟩ : RawEnt)]) = .ok names ∧
      ((⟨[255], true⟩ : RawEnt)).name ∉ names :=
  ⟨List.mem_singleton.mpr rfl, by decide,
    listFiles_skips_invalid_names.2 [⟨[255], true⟩] ⟨[255], true⟩
      (List.mem_singleton.mpr rfl) (by decide)⟩

/-- C7 counterexample: the entry `../x.sh` fails both the traversal check
and the blocked-extension check, but the returned list holds only the
single `PathTraversal` violation — the per-entry checks short-circuit at
the first failure, contrary to the claim that every failing check of an
entry contributes a violation. -/
theorem checkManifest_short_circuit_counterexample :
    checkManifest (fun _ => none) ⟨1, none, false, [.Add "../x.sh" "h"]⟩ "/t" =
      .error [.PathTraversal "../x.sh"] ∧
    endsWithStr (toLowerAscii "../x.sh") ".sh" = true ∧
    RestrictionViolation.BlockedExtension "../x.sh" ".sh" ∉
      [RestrictionViolation.PathTraversal "../x.sh"] :=
  ⟨rfl, by decide, by decide⟩

/-- C7 (amended): with `allow_restricted = false`, violations are
collected across entries without short-circuiting — every entry whose
`check_path` fails contributes its (single, first-failing-check)
violation to the returned `RestrictedPaths` list, later failing entries
included.  Within one entry the three checks stop at the first failure. -/
theorem checkManifest_collects_per_entry (canon : String → Option String) (m : Manifest)
    (target : String) (har : m.allow_restricted = false) (e : ManifestEntry)
    (he : e ∈ m.entries) (v : RestrictionViolation)
    (hv : checkPath canon e.file target = .error v) :
    ∃ vs, checkManifest canon m target = .error vs ∧ v ∈ vs :=
  checkManifest_error_of_mem canon m target har e he v hv

/-- C7 witness: the second of two failing entries contributes its
violation to the returned list. -/
theorem checkManifest_collects_per_entry_witness :
    checkPath (fun _ => none) (ManifestEntry.file (.Add "b.so" "h")) "/t" =
      .error (.BlockedExtension "b.so" ".so") ∧
    ∃ vs, checkManifest (fun _ => none)
        ⟨1, none, false, [.Add "a.sh" "h", .Add "b.so" "h"]⟩ "/t" = .error vs ∧
      RestrictionViolation.BlockedExtension "b.so" ".so" ∈ vs :=
  ⟨rfl, checkManifest_collects_per_entry (fun _ => none)
    ⟨1, none, false, [.Add "a.sh" "h", .Add "b.so" "h"]⟩ "/t" rfl
    (.Add "b.so" "h") (by decide) (.BlockedExtension "b.so" ".so") rfl⟩

/-- C8: idempotence of absence — a `Delete` entry whose file is missing
from the target passes `validate_entries` and `apply_entry` returns `Ok`
with the target unchanged. -/
theorem delete_absent_idempotent (f oh : String) (target pd pf : FS)
    (h : target f = none) :
    validateEntries target [.Delete f oh] = .ok () ∧
    applyEntry pd pf target (.Delete f oh) = .ok target := by
  refine ⟨?_, ?_⟩
  · simp [validateEntries, validateEntry, h]
  · simp [applyEntry, h]

/-- C8 witness: deleting an absent file from an empty target. -/
theorem delete_absent_idempotent_witness :
    fsEmpty "g" = (none : Option Bytes) ∧
    validateEntries fsEmpty [.Delete "g" "h"] = .ok () ∧
    applyEntry fsEmpty fsEmpty fsEmpty (.Delete "g" "h") = .ok fsEmpty :=
  ⟨rfl, (delete_absent_idempotent "g" "h" fsEmpty fsEmpty fsEmpty rfl).1,
    (delete_absent_idempotent "g" "h" fsEmpty fsEmpty fsEmpty rfl).2⟩

/-- C9 counterexample: a bundle directory with a populated `assets/`
subtree produces an archive whose only member is `manifest.json` — the
packer never archives `assets/`, contrary to the claim. -/
theorem createArchive_assets_counterexample :
    createArchiveBytes (.cons (.fileE "manifest.json" [123])
        (.cons (.dirE "assets" (.cons (.fileE "icon.png" [1]) .nil)) .nil)) =
      .ok [("manifest.json", [123])] ∧
    findDir "assets" (.cons (.fileE "manifest.json" [123])
        (.cons (.dirE "assets" (.cons (.fileE "icon.png" [1]) .nil)) .nil)) =
      some (.cons (.fileE "icon.png" [1]) .nil) :=
  ⟨rfl, rfl⟩

theorem startsWithChars_self_append :
    ∀ (l rest : List Char), startsWithChars l (l ++ rest) = true := by
  intro l
  induction l with
  | nil => intro rest; rfl
  | cons c cs ih =>
    intro rest
    have hred : startsWithChars (c :: cs) ((c :: cs) ++ rest) =
        (c == c && startsWithChars cs (cs ++ rest)) := rfl
    rw [hred, Bool.and_eq_true]
    exact ⟨by simp, ih rest⟩

theorem startsWithChars_append_left :
    ∀ (a b s : List Char), startsWithChars (a ++ b) s = true → startsWithChars a s = true := by
  intro a
  induction a with
  | nil => intro b s _; rfl
  | cons c cs ih =>
    intro b s h
    cases s with
    | nil => cases h
    | cons d ds =>
      have hred : startsWithChars ((c :: cs) ++ b) (d :: ds) =
          (c == d && startsWithChars (cs ++ b) ds) := rfl
      rw [hred, Bool.and_eq_true] at h
      have gred : startsWithChars (c :: cs) (d :: ds) =
          (c == d && startsWithChars cs ds) := rfl
      rw [gred, Bool.and_eq_true]
      exact ⟨h.1, ih b ds h.2⟩

mutual
theorem walkOne_member_starts (pre : String) (ent : Dirent) (p : String × Bytes)
    (hp : p ∈ walkOne pre ent) : startsWithChars (pre.data ++ ['/']) p.1.data = true := by
  cases ent with
  | fileE n c =>
    rw [walkOne, List.mem_singleton] at hp
    subst hp
    have hdata : ((pre ++ "/") ++ n).data = (pre.data ++ ['/']) ++ n.data := by
      simp [String.data_append]
    rw [hdata]
    exact startsWithChars_self_append _ _
  | dirE n es =>
    rw [walkOne] at hp
    have h1 := walkList_member_starts (pre ++ "/" ++ n) es p hp
    have hdata : ((pre ++ "/") ++ n).data ++ ['/'] =
        (pre.data ++ ['/']) ++ (n.data ++ ['/']) := by
      simp [String.data_append]
    rw [hdata] at h1
    exact startsWithChars_append_left _ _ _ h1
theorem walkList_member_starts (pre : String) (es : DirList) (p : String × Bytes)
    (hp : p ∈ walkList pre es) : startsWithChars (pre.data ++ ['/']) p.1.data = true := by
  cases es with
  | nil => rw [walkList] at hp; cases hp
  | cons ent rest =>
    rw [walkList] at hp
    rcases List.mem_append.mp hp with hmem | hmem
    · exact walkOne_member_starts pre ent p hmem
    · exact walkList_member_starts pre rest p hmem
end

/-- C9 (amended): the archive members are `manifest.json` first, then the
`diffs/` subtree when present, then the `files/` subtree when present,
and nothing else — every member is `manifest.json` or lives under
`diffs/` or `files/`; the `assets/` subtree is never archived. -/
theorem createArchive_members (root : DirList) (mc : Bytes)
    (h : findFile "manifest.json" root = some mc) :
    ∃ ms, createArchiveBytes root = .ok ms ∧
      ms.head? = some ("manifest.json", mc) ∧
      ∀ p ∈ ms, p.1 = "manifest.json" ∨
        startsWithStr p.1 "diffs/" = true ∨ startsWithStr p.1 "files/" = true := by
  unfold createArchiveBytes
  rw [h]
  refine ⟨_, rfl, rfl, ?_⟩
  intro p hp
  rw [List.mem_append, List.mem_append] at hp
  rcases hp with (hm | hd) | hf
  · rw [List.mem_singleton] at hm
    subst hm
    exact Or.inl rfl
  · refine Or.inr (Or.inl ?_)
    cases hdir : findDir "diffs" root with
    | none => rw [hdir] at hd; cases hd
    | some es =>
      rw [hdir] at hd
      have := walkList_member_starts "diffs" es p hd
      unfold startsWithStr
      exact this
  · refine Or.inr (Or.inr ?_)
    cases hdir : findDir "files" root with
    | none => rw [hdir] at hf; cases hf
    | some es =>
      rw [hdir] at hf
      have := walkList_member_starts "files" es p hf
      unfold startsWithStr
      exact this

/-- C9 witness: a bundle with just a manifest. -/
theorem createArchive_members_witness :
    findFile "manifest.json" (.cons (.fileE "manifest.json" [7]) .nil) = some [7] ∧
    ∃ ms, createArchiveBytes (.cons (.fileE "manifest.json" [7]) .nil) = .ok ms ∧
      ms.head? = some ("manifest.json", [7]) ∧
      ∀ p ∈ ms, p.1 = "manifest.json" ∨
        startsWithStr p.1 "diffs/" = true ∨ startsWithStr p.1 "files/" = true :=
  ⟨rfl, createArchive_members (.cons (.fileE "manifest.json" [7]) .nil) [7] rfl⟩

/-- C10: manifest serialization round-trip — saving any manifest (any
`u32` version, optional title, any `allow_restricted` flag, any entry
sequence) and loading the written document returns an equal manifest. -/
theorem manifest_save_load_roundtrip (m : Manifest) (hv : m.version < 4294967296) :
    Manifest.load (some (Manifest.save m)) = .ok m :=
  manifestFromJson_manifestToJson m hv

/-- C10 witness: a manifest with all three entry kinds, a title and the
`allow_restricted` flag round-trips. -/
theorem manifest_save_load_roundtrip_witness :
    ((⟨1, some "Test", true,
        [.Patch "a" "h1" "h2" "h3", .Add "b" "h4", .Delete "c" "h5"]⟩ : Manifest)).version
      < 4294967296 ∧
    Manifest.load (some (Manifest.save
        ⟨1, some "Test", true,
          [.Patch "a" "h1" "h2" "h3", .Add "b" "h4", .Delete "c" "h5"]⟩)) =
      .ok ⟨1, some "Test", true,
        [.Patch "a" "h1" "h2" "h3", .Add "b" "h4", .Delete "c" "h5"]⟩ :=
  ⟨by decide, manifest_save_load_roundtrip _ (by decide)⟩

end Graft
